import Mathlib

/-
Verification development for the Porta fontium URL crawler (src/main.py).

Modelling conventions (shallow embedding):

 * URL strings are modelled by the structure Url, holding the six components
   produced by Python urllib's urlparse (scheme, netloc, path, params, query,
   fragment), with the query held as the decoded key/value pair list produced
   by parse_qsl.  urlparse / urlunparse / parse_qsl / urlencode are external
   standard-library collaborators of the code under verification; they are
   modelled by the round trip being the identity on this structure.  Equality
   of normalized link strings (Python string equality) is modelled by equality
   of Url values.  The rendering of a Url back to a string (urlunparse with an
   urlencoded query, as Python produces it) is urlRender below; Python's
   substring test on a link string (the in operator) is modelled by urlContains
   on that rendering.
 * HTML documents are modelled by the structure Html: the raw text (on which
   the code runs regular-expression scans) together with the list of anchor
   href values, already parsed to Url, that BeautifulSoup would enumerate in
   the result scope chosen by extract_links_from_html (its table.views-table /
   .view-content / .view / whole-document cascade), in document order.  The
   HTML parser itself is an external collaborator and is abstracted this way.
 * Network fetches (requests), the cooperative stop flag, and time.sleep are
   modelled by oracles in CrawlEnv plus a ghost event trace (Ev); a raised
   requests exception is an Except.error value.  The direct oracle at page p
   models fetch_html of build_visible_url(action, lang, exposed, p); the ajax
   oracle models drupal_views_ajax_fetch at page p with the same exposed
   items (view name, theme and token are marshalled into that request and are
   absorbed by the oracle).
 * Python floats (the delay) are modelled by rationals: the code only ever
   compares the delay with zero.  Python ints are Nat where the code keeps
   them non-negative.  Character lowercasing is modelled on ASCII letters
   (Char.toLower), which covers every comparison the code performs.
-/

set_option maxRecDepth 4000

/-! String helpers, written over the character list so that everything
    reduces inside the kernel. -/

/-- Boolean test that pat occurs as a prefix of s (Python str.startswith). -/
def strStartsWith (s pat : String) : Bool :=
  pat.data.isPrefixOf s.data

/-- Boolean test that pat occurs as a suffix of s (Python str.endswith). -/
def strEndsWith (s pat : String) : Bool :=
  pat.data.isSuffixOf s.data

/-- Occurrence of pat as a contiguous substring of a character list
    (Python's in operator on strings). -/
def subOccurs (pat : List Char) : List Char → Bool
  | [] => pat.isPrefixOf []
  | c :: rest => pat.isPrefixOf (c :: rest) || subOccurs pat rest

/-- Occurrence of pat as a contiguous substring of s. -/
def strIn (pat s : String) : Bool :=
  subOccurs pat.data s.data

/-- ASCII lowercasing, modelling Python str.lower on the texts the code
    compares (pure ASCII apart from characters that both sides leave fixed). -/
def strLower (s : String) : String :=
  String.mk (s.data.map Char.toLower)

/-- Python str.strip(): drop leading and trailing whitespace. -/
def strStrip (s : String) : String :=
  String.mk (((s.data.dropWhile Char.isWhitespace).reverse.dropWhile
    Char.isWhitespace).reverse)

/-- Split a string at every slash (Python str.split with separator "/"). -/
def splitSlashAux (acc : List Char) : List Char → List String
  | [] => [String.mk acc.reverse]
  | c :: cs =>
    if c = '/' then String.mk acc.reverse :: splitSlashAux [] cs
    else splitSlashAux (c :: acc) cs

/-- Split a string at every slash. -/
def splitSlash (s : String) : List String :=
  splitSlashAux [] s.data

/-- Join a list of strings with slashes (Python "/".join). -/
def joinSlash (l : List String) : String :=
  String.intercalate "/" l

/-! First-occurrence deduplication, the pattern
    seen = set(); out = []; for x in xs: if x not in seen: seen.add(x); out.append(x)
    that the crawler uses everywhere.  The seen set is carried as a list
    whose membership is what matters. -/

/-- First-occurrence dedup against an initial seen set. -/
def dedupFirstAux {α : Type} [DecidableEq α] (seen : List α) : List α → List α
  | [] => []
  | x :: xs =>
    if x ∈ seen then dedupFirstAux seen xs
    else x :: dedupFirstAux (x :: seen) xs

/-- First-occurrence dedup of a list. -/
def dedupFirst {α : Type} [DecidableEq α] (l : List α) : List α :=
  dedupFirstAux [] l

/-- Index of the first occurrence of an element (length when absent). -/
def firstIdx {α : Type} [DecidableEq α] : List α → α → Nat
  | [], _ => 0
  | x :: xs, a => if x = a then 0 else firstIdx xs a + 1

theorem dedupFirstAux_nil {α : Type} [DecidableEq α] (seen : List α) :
    dedupFirstAux seen ([] : List α) = [] := rfl

theorem dedupFirstAux_cons {α : Type} [DecidableEq α] (seen : List α) (x : α)
    (xs : List α) : dedupFirstAux seen (x :: xs) =
      if x ∈ seen then dedupFirstAux seen xs
      else x :: dedupFirstAux (x :: seen) xs := rfl

theorem firstIdx_cons {α : Type} [DecidableEq α] (x : α) (xs : List α) (a : α) :
    firstIdx (x :: xs) a = if x = a then 0 else firstIdx xs a + 1 := rfl

theorem mem_dedupFirstAux {α : Type} [DecidableEq α] {seen : List α} {l : List α}
    {x : α} : x ∈ dedupFirstAux seen l ↔ x ∈ l ∧ x ∉ seen := by
  induction l generalizing seen with
  | nil => simp [dedupFirstAux]
  | cons y ys ih =>
    rw [dedupFirstAux_cons]
    by_cases hy : y ∈ seen
    · rw [if_pos hy, ih]
      constructor
      · rintro ⟨hm, hs⟩
        exact ⟨List.mem_cons_of_mem _ hm, hs⟩
      · rintro ⟨hm, hs⟩
        rcases List.mem_cons.mp hm with rfl | hm'
        · exact absurd hy hs
        · exact ⟨hm', hs⟩
    · rw [if_neg hy]
      constructor
      · intro hmem
        rcases List.mem_cons.mp hmem with rfl | hm'
        · exact ⟨List.mem_cons_self _ _, hy⟩
        · rcases ih.mp hm' with ⟨hm, hs⟩
          exact ⟨List.mem_cons_of_mem _ hm, fun hx => hs (List.mem_cons_of_mem _ hx)⟩
      · rintro ⟨hm, hs⟩
        rcases List.mem_cons.mp hm with rfl | hm'
        · exact List.mem_cons_self _ _
        · by_cases hxy : x = y
          · subst hxy
            exact List.mem_cons_self _ _
          · refine List.mem_cons_of_mem _ (ih.mpr ⟨hm', ?_⟩)
            intro hx
            rcases List.mem_cons.mp hx with h1 | h2
            · exact hxy h1
            · exact hs h2

theorem dedupFirstAux_congr {α : Type} [DecidableEq α] {s t : List α}
    (h : ∀ x, x ∈ s ↔ x ∈ t) : ∀ l : List α, dedupFirstAux s l = dedupFirstAux t l := by
  intro l
  induction l generalizing s t with
  | nil => rfl
  | cons y ys ih =>
    rw [dedupFirstAux_cons, dedupFirstAux_cons]
    by_cases hy : y ∈ s
    · rw [if_pos hy, if_pos ((h y).mp hy)]
      exact ih h
    · have hy' : y ∉ t := fun hc => hy ((h y).mpr hc)
      rw [if_neg hy, if_neg hy']
      have hcons : ∀ x, x ∈ y :: s ↔ x ∈ y :: t := by
        intro x
        simp [List.mem_cons, h x]
      rw [ih hcons]

theorem dedupFirstAux_append {α : Type} [DecidableEq α] (s a b : List α) :
    dedupFirstAux s (a ++ b) = dedupFirstAux s a ++ dedupFirstAux (a ++ s) b := by
  induction a generalizing s with
  | nil => simp [dedupFirstAux_nil]
  | cons x a' ih =>
    have hx1 : (x :: a') ++ b = x :: (a' ++ b) := rfl
    by_cases hx : x ∈ s
    · rw [hx1, dedupFirstAux_cons, if_pos hx, dedupFirstAux_cons, if_pos hx, ih s]
      congr 1
      refine dedupFirstAux_congr (fun z => ?_) b
      simp only [List.mem_append, List.cons_append, List.mem_cons]
      constructor
      · intro hz
        tauto
      · rintro (rfl | hz | hz)
        · exact Or.inr hx
        · exact Or.inl hz
        · exact Or.inr hz
    · rw [hx1, dedupFirstAux_cons, if_neg hx, dedupFirstAux_cons, if_neg hx, ih (x :: s)]
      rw [List.cons_append]
      congr 1
      congr 1
      refine dedupFirstAux_congr (fun z => ?_) b
      simp only [List.mem_append, List.cons_append, List.mem_cons]
      tauto

theorem dedupFirstAux_nodup {α : Type} [DecidableEq α] (s l : List α) :
    (dedupFirstAux s l).Nodup := by
  induction l generalizing s with
  | nil => simp [dedupFirstAux_nil]
  | cons x xs ih =>
    rw [dedupFirstAux_cons]
    by_cases hx : x ∈ s
    · rw [if_pos hx]
      exact ih s
    · rw [if_neg hx, List.nodup_cons]
      refine ⟨fun hc => ?_, ih (x :: s)⟩
      exact (mem_dedupFirstAux.mp hc).2 (List.mem_cons_self x s)

theorem dedupFirstAux_sublist {α : Type} [DecidableEq α] (s l : List α) :
    (dedupFirstAux s l).Sublist l := by
  induction l generalizing s with
  | nil => simp [dedupFirstAux_nil]
  | cons x xs ih =>
    rw [dedupFirstAux_cons]
    by_cases hx : x ∈ s
    · rw [if_pos hx]
      exact (ih s).cons x
    · rw [if_neg hx]
      exact (ih (x :: s)).cons₂ x

theorem dedupFirstAux_pairwise_firstIdx {α : Type} [DecidableEq α] (s l : List α) :
    (dedupFirstAux s l).Pairwise (fun a b => firstIdx l a < firstIdx l b) := by
  induction l generalizing s with
  | nil => simp [dedupFirstAux_nil]
  | cons x xs ih =>
    rw [dedupFirstAux_cons]
    by_cases hx : x ∈ s
    · rw [if_pos hx]
      refine ((ih s).imp_of_mem ?_)
      intro a b ha hb hlt
      have hxa : x ≠ a := by
        rintro rfl
        exact (mem_dedupFirstAux.mp ha).2 hx
      have hxb : x ≠ b := by
        rintro rfl
        exact (mem_dedupFirstAux.mp hb).2 hx
      rw [firstIdx_cons, if_neg hxa, firstIdx_cons, if_neg hxb]
      omega
    · rw [if_neg hx, List.pairwise_cons]
      constructor
      · intro b hb
        have hxb : x ≠ b := by
          rintro rfl
          exact (mem_dedupFirstAux.mp hb).2 (List.mem_cons_self x s)
        rw [firstIdx_cons, if_pos rfl, firstIdx_cons, if_neg hxb]
        omega
      · refine ((ih (x :: s)).imp_of_mem ?_)
        intro a b ha hb hlt
        have hxa : x ≠ a := by
          rintro rfl
          exact (mem_dedupFirstAux.mp ha).2 (List.mem_cons_self x s)
        have hxb : x ≠ b := by
          rintro rfl
          exact (mem_dedupFirstAux.mp hb).2 (List.mem_cons_self x s)
        rw [firstIdx_cons, if_neg hxa, firstIdx_cons, if_neg hxb]
        omega

theorem dedupFirstAux_eq_self {α : Type} [DecidableEq α] {s l : List α}
    (hnd : l.Nodup) (hdisj : ∀ x ∈ l, x ∉ s) : dedupFirstAux s l = l := by
  induction l generalizing s with
  | nil => rfl
  | cons x xs ih =>
    have hx : x ∉ s := hdisj x (List.mem_cons_self x xs)
    simp only [dedupFirstAux, if_neg hx]
    congr 1
    refine ih (List.Nodup.of_cons hnd) ?_
    intro z hz
    simp only [List.mem_cons]
    rintro (rfl | hzs)
    · exact (List.nodup_cons.mp hnd).1 hz
    · exact hdisj z (List.mem_cons_of_mem _ hz) hzs

theorem dedupFirst_nodup {α : Type} [DecidableEq α] (l : List α) :
    (dedupFirst l).Nodup := dedupFirstAux_nodup [] l

theorem mem_dedupFirst {α : Type} [DecidableEq α] {l : List α} {x : α} :
    x ∈ dedupFirst l ↔ x ∈ l := by
  simp [dedupFirst, mem_dedupFirstAux]

theorem dedupFirst_eq_self {α : Type} [DecidableEq α] {l : List α}
    (hnd : l.Nodup) : dedupFirst l = l :=
  dedupFirstAux_eq_self hnd (by intro x _ h; cases h)

/-! The URL data model.  A Url value models a URL string through the six
    components of urllib's urlparse; the query component is held as the
    decoded pair list of parse_qsl (urlencode / parse_qsl round-trip). -/

/-- Parsed URL, mirroring the 6-tuple of urllib.parse.urlparse with the
    query already run through parse_qsl (keep_blank_values=True). -/
structure Url where
  scheme : String
  netloc : String
  path : String
  params : String
  query : List (String × String)
  fragment : String
deriving DecidableEq, Repr

/-- The empty URL string (falsy in Python). -/
def Url.empty : Url := { scheme := "", netloc := "", path := "", params := "", query := [], fragment := "" }

/-- The configured BASE, https://www.portafontium.eu, as parsed. -/
def baseUrl : Url :=
  { scheme := "https", netloc := "www.portafontium.eu", path := "", params := "", query := [], fragment := "" }

/-- The canonical viewer link BASE/iipimage/pid, as parsed. -/
def mkViewer (pid : String) : Url :=
  { scheme := "https", netloc := "www.portafontium.eu", path := "/iipimage/" ++ pid,
    params := "", query := [], fragment := "" }

/-! Rendering a Url back to the string urlunparse would produce, with the
    query urlencoded exactly as urllib.parse.urlencode (quote_plus over the
    UTF-8 bytes, safe set letters digits underscore dot dash tilde, space
    to plus).  Needed only to model Python's substring tests on link
    strings. -/

/-- UTF-8 bytes of one character, as numbers. -/
def utf8Bytes (c : Char) : List Nat :=
  let n := c.toNat
  if n < 0x80 then [n]
  else if n < 0x800 then [0xC0 + n / 0x40, 0x80 + n % 0x40]
  else if n < 0x10000 then
    [0xE0 + n / 0x1000, 0x80 + (n / 0x40) % 0x40, 0x80 + n % 0x40]
  else
    [0xF0 + n / 0x40000, 0x80 + (n / 0x1000) % 0x40, 0x80 + (n / 0x40) % 0x40, 0x80 + n % 0x40]

/-- Upper-case hexadecimal digit. -/
def hexDigit (n : Nat) : Char :=
  if n = 0 then '0' else if n = 1 then '1' else if n = 2 then '2' else if n = 3 then '3'
  else if n = 4 then '4' else if n = 5 then '5' else if n = 6 then '6' else if n = 7 then '7'
  else if n = 8 then '8' else if n = 9 then '9' else if n = 10 then 'A' else if n = 11 then 'B'
  else if n = 12 then 'C' else if n = 13 then 'D' else if n = 14 then 'E' else 'F'

/-- Characters that quote_plus leaves unescaped. -/
def quoteSafe (c : Char) : Bool :=
  c.isAlpha || c.isDigit || c = '_' || c = '.' || c = '-' || c = '~'

/-- quote_plus of one character. -/
def quotePlusChar (c : Char) : List Char :=
  if quoteSafe c then [c]
  else if c = ' ' then ['+']
  else (utf8Bytes c).flatMap (fun b => ['%', hexDigit (b / 16), hexDigit (b % 16)])

/-- quote_plus of a string. -/
def quotePlus (s : String) : String :=
  String.mk (s.data.flatMap quotePlusChar)

/-- urlencode of a decoded query pair list. -/
def encodeQuery (q : List (String × String)) : String :=
  String.intercalate "&" (q.map (fun kv => quotePlus kv.1 ++ "=" ++ quotePlus kv.2))

/-- The string urlunparse produces for a Url (the link string the Python
    code passes around). -/
def urlRender (u : Url) : String :=
  let netPart :=
    if u.netloc ≠ "" ∨ strStartsWith u.path "//" then
      "//" ++ u.netloc ++
        (if u.path ≠ "" ∧ ¬ strStartsWith u.path "/" then "/" ++ u.path else u.path)
    else u.path
  (if u.scheme ≠ "" then u.scheme ++ ":" else "") ++ netPart ++
    (if u.params ≠ "" then ";" ++ u.params else "") ++
    (if u.query ≠ [] then "?" ++ encodeQuery u.query else "") ++
    (if u.fragment ≠ "" then "#" ++ u.fragment else "")

/-- Python's substring test pat in link, on the rendered link string. -/
def urlContains (u : Url) (pat : String) : Bool :=
  strIn pat (urlRender u)

/-! strip_language_param (src/main.py lines 144-152): parse, drop every
    query key equal to language case-insensitively, re-encode without the
    fragment.  The empty-string guard of line 145 is the Url.empty guard. -/

/-- strip_language_param of src/main.py. -/
def strip_language_param (u : Url) : Url :=
  if u = Url.empty then u
  else if u.query = [] then { u with query := [], fragment := "" }
  else { u with query := u.query.filter (fun kv => strLower kv.1 ≠ "language"), fragment := "" }

/-! Tab definitions (src/main.py lines 119-138). -/

/-- TabDef of src/main.py. -/
structure TabDef where
  key : String
  path : String
  allowed_prefixes : List String
  prefer_iipimage_root : Bool := true
  prefer_iipimage_only_if_present : Bool := true
deriving DecidableEq, Repr

/-- The register tab. -/
def registerTab : TabDef :=
  { key := "register", path := "/searching/register", allowed_prefixes := ["/register/", "/iipimage/"] }

/-- The chronicle tab. -/
def chronicleTab : TabDef :=
  { key := "chronicle", path := "/searching/chronicle", allowed_prefixes := ["/chronicle/", "/iipimage/"] }

/-- The charter tab. -/
def charterTab : TabDef :=
  { key := "charter", path := "/searching/charter", allowed_prefixes := ["/charter/", "/iipimage/"] }

/-- The photo tab. -/
def photoTab : TabDef :=
  { key := "photo", path := "/searching/photo", allowed_prefixes := ["/photo/", "/iipimage/"] }

/-- The census tab. -/
def censusTab : TabDef :=
  { key := "census", path := "/searching/census", allowed_prefixes := ["/census/", "/iipimage/"] }

/-- The map tab. -/
def mapTab : TabDef :=
  { key := "map", path := "/searching/map", allowed_prefixes := ["/map/", "/iipimage/"] }

/-- The periodical tab: not viewer-only, the crawl needs the periodical
    container pages. -/
def periodicalTab : TabDef :=
  { key := "periodical", path := "/searching/periodical",
    allowed_prefixes := ["/iipimage/", "/periodical/"],
    prefer_iipimage_only_if_present := false }

/-- The amtsbuch tab. -/
def amtsbuchTab : TabDef :=
  { key := "amtsbuch", path := "/searching/amtsbuch", allowed_prefixes := ["/amtsbuch/", "/iipimage/"] }

/-- TABS of src/main.py. -/
def TABS : List TabDef :=
  [registerTab, chronicleTab, charterTab, photoTab, censusTab, mapTab, periodicalTab, amtsbuchTab]

/-! extract_iipimage_ids_anywhere (src/main.py lines 593-601):
    re.findall of the pattern slash iipimage slash digits, then a
    first-occurrence dedup.  findIip scans every position; this agrees with
    re.findall because no successful match of this pattern can start
    strictly inside the span of another (the literal part cannot overlap
    itself and the digit part contains no slash). -/

/-- The literal part of the viewer-id pattern. -/
def iipPat : List Char := "/iipimage/".data

/-- All captured digit groups of the viewer-id pattern, in match order. -/
def findIip : List Char → List String
  | [] => []
  | c :: rest =>
    if iipPat.isPrefixOf (c :: rest) then
      let ds := (rest.drop 9).takeWhile Char.isDigit
      if ds = [] then findIip rest else String.mk ds :: findIip rest
    else findIip rest

/-- extract_iipimage_ids_anywhere of src/main.py. -/
def extract_iipimage_ids_anywhere (text : String) : List String :=
  dedupFirst (findIip text.data)

/-! urljoin against BASE (urllib.parse.urljoin semantics for the fixed
    base https://www.portafontium.eu, whose parsed path is empty). -/

/-- Drop empty segments except in first and last position
    (the filter on segments[1:-1] in urljoin). -/
def filterMidAux : List String → List String
  | [] => []
  | [y] => [y]
  | y :: ys => if y = "" then filterMidAux ys else y :: filterMidAux ys

/-- Apply filterMidAux to everything after the first segment. -/
def filterMiddle : List String → List String
  | [] => []
  | [x] => [x]
  | x :: rest => x :: filterMidAux rest

/-- One step of dot-segment resolution. -/
def resolveSeg (acc : List String) (seg : String) : List String :=
  if seg = ".." then acc.dropLast
  else if seg = "." then acc
  else acc ++ [seg]

/-- urljoin(BASE, href) of urllib, for the fixed base. -/
def urljoinBase (href : Url) : Url :=
  if href = Url.empty then baseUrl
  else
    let scheme := if href.scheme = "" then "https" else href.scheme
    if scheme ≠ "https" then href
    else if href.netloc ≠ "" then { href with scheme := scheme }
    else if href.path = "" ∧ href.params = "" then
      { scheme := scheme, netloc := baseUrl.netloc, path := baseUrl.path,
        params := baseUrl.params,
        query := if href.query = [] then baseUrl.query else href.query,
        fragment := href.fragment }
    else
      let segments :=
        if strStartsWith href.path "/" then splitSlash href.path
        else filterMiddle ([""] ++ splitSlash href.path)
      let resolved := segments.foldl resolveSeg []
      let resolved :=
        if segments.getLastD "" = "." ∨ segments.getLastD "" = ".." then resolved ++ [""]
        else resolved
      let newPath := joinSlash resolved
      { scheme := scheme, netloc := baseUrl.netloc,
        path := if newPath = "" then "/" else newPath,
        params := href.params, query := href.query, fragment := href.fragment }

/-! normalize_pf_link (src/main.py lines 604-621). -/

/-- normalize_pf_link of src/main.py.  The href is the anchor's href value
    as parsed; None is Option.none. -/
def normalize_pf_link (tab : TabDef) (href : Url) : Option Url :=
  if href = Url.empty then none
  else
    let full := urljoinBase href
    if ¬ strEndsWith full.netloc "portafontium.eu" then none
    else if ¬ tab.allowed_prefixes.any (fun pref => strStartsWith full.path pref) then none
    else if tab.prefer_iipimage_root && strStartsWith full.path "/iipimage/" then
      let ds := (full.path.data.drop 10).takeWhile Char.isDigit
      if ds ≠ [] then some (mkViewer (String.mk ds))
      else some (strip_language_param { full with fragment := "" })
    else some (strip_language_param { full with fragment := "" })

/-! HTML documents and extract_links_from_html (src/main.py lines 624-666). -/

/-- A fetched HTML document or fragment: the raw text (for the regular
    expression scans) and the href values of the anchors BeautifulSoup
    finds in the chosen result scope, in document order. -/
structure Html where
  text : String
  anchors : List Url
deriving DecidableEq, Repr

/-- extract_links_from_html of src/main.py. -/
def extract_links_from_html (tab : TabDef) (h : Html) : List Url :=
  if tab.key ≠ "periodical" ∧ extract_iipimage_ids_anywhere h.text ≠ [] ∧
      tab.prefer_iipimage_only_if_present = true then
    dedupFirst ((extract_iipimage_ids_anywhere h.text).map mkViewer)
  else
    let base := dedupFirst (h.anchors.filterMap (normalize_pf_link tab))
    if tab.key = "periodical" then
      base ++ dedupFirstAux base
        ((extract_iipimage_ids_anywhere h.text).map (fun pid => strip_language_param (mkViewer pid)))
    else base

/-- The raw candidate stream of one extraction call, in extraction order,
    before duplicate suppression (ghost value used to state the
    first-seen-order property). -/
def extractStream (tab : TabDef) (h : Html) : List Url :=
  if tab.key ≠ "periodical" ∧ extract_iipimage_ids_anywhere h.text ≠ [] ∧
      tab.prefer_iipimage_only_if_present = true then
    (extract_iipimage_ids_anywhere h.text).map mkViewer
  else
    h.anchors.filterMap (normalize_pf_link tab) ++
      (if tab.key = "periodical" then
        (extract_iipimage_ids_anywhere h.text).map (fun pid => strip_language_param (mkViewer pid))
      else [])

/-! pick_default_option (src/main.py lines 202-218). -/

/-- The label test of precedence step 3: lowered, stripped label contains
    alle, contains the Czech all word, or equals all. -/
def labelMeansAll (lab : String) : Bool :=
  let low := strLower (strStrip lab)
  strIn "alle" low || strIn "vše" low || low = "all"

/-- pick_default_option of src/main.py; options are (label, value) pairs. -/
def pick_default_option (opts : List (String × String)) : String :=
  match opts with
  | [] => ""
  | o :: _ =>
    match opts.find? (fun lv => lv.2 = "") with
    | some lv => lv.2
    | none =>
      match opts.find? (fun lv => strLower lv.2 = "all") with
      | some lv => lv.2
      | none =>
        match opts.find? (fun lv => labelMeansAll lv.1) with
        | some lv => lv.2
        | none => o.2

/-! The crawl machinery of src/main.py lines 672-926.  Network, the stop
    flag and the delay are oracles; Ev is a ghost trace of the observable
    actions, emitted in program order. -/

/-- Ghost events of one crawl invocation.
    get p: the direct GET of page p (fetch_html of the visible URL).
    ajaxCall p items: drupal_views_ajax_fetch at page p carrying the
    exposed items actually passed.
    page p pls added: page p finished extraction with raw extracted list
    pls, of which added were new (not yet seen) after normalization.
    sleep p: the inter-page delay taken after page p.
    brk p: the loop broke (streak break or propagated ajax error) at page p.
    bootGet: the bare category page re-fetch of the view-info cascade.
    expGet u: the fetch of periodical container page u.
    expPage u ids: that page yielded viewer ids ids.
    expSleep i: the delay after the i-th container page. -/
inductive Ev where
  | get (p : Nat)
  | ajaxCall (p : Nat) (items : List (String × String))
  | page (p : Nat) (pls added : List Url)
  | sleep (p : Nat)
  | brk (p : Nat)
  | bootGet
  | expGet (u : Url)
  | expPage (u : Url) (ids : List String)
  | expSleep (i : Nat)
deriving DecidableEq, Repr

/-- View metadata extracted by parse_drupal_view_info; the empty string is
    a missing field (falsy in Python). -/
structure ViewInfo where
  view_name : String := ""
  view_display_id : String := ""
  view_dom_id : String := ""
  theme : String := ""
  theme_token : String := ""
deriving DecidableEq, Repr

/-- A fetched document together with the view info its markup carries
    (parse_drupal_view_info is a pure function of the text and is
    abstracted into the oracle's answer). -/
structure BootDoc where
  doc : Html
  viewInfo : ViewInfo
deriving DecidableEq, Repr

/-- The oracles of one crawl: direct page fetch (fetch_html of the visible
    URL for a page index), the views/ajax endpoint for a page index, the
    bare category page re-fetch, the fetch of a periodical container page,
    and the polled stop flag at the two polling sites.  Except.error models
    a raised requests exception. -/
structure CrawlEnv where
  direct : Nat → Except String Html
  ajax : Nat → Except String Html
  boot : Except String BootDoc
  expFetch : Url → Except String Html
  stopPage : Nat → Bool
  stopExp : Nat → Bool

/-- Python x or y on strings (empty string is falsy). -/
def pyOr (a b : String) : String := if a = "" then b else a

/-- The two fetch attempts of one page (lines 850-874): the direct GET with
    every exception swallowed, then, when that produced no links, the ajax
    endpoint whose failure is not caught. -/
def fetchPage (env : CrawlEnv) (tab : TabDef) (exposed : List (String × String))
    (pg : Nat) : List Ev × Except String (List Url) :=
  let direct : List Url :=
    match env.direct pg with
    | .ok h => extract_links_from_html tab h
    | .error _ => []
  if direct = [] then
    match env.ajax pg with
    | .error e => ([Ev.get pg, Ev.ajaxCall pg exposed], .error e)
    | .ok frag => ([Ev.get pg, Ev.ajaxCall pg exposed], .ok (extract_links_from_html tab frag))
  else ([Ev.get pg], .ok direct)

/-- Outcome of one loop iteration: the loop ends with a result, or
    continues with the new accumulator and streak counters. -/
inductive Step where
  | halt (res : Except String (List Url))
  | next (all : List Url) (es nns : Nat)
deriving Repr

/-- Processing of one page after the fetch attempts (lines 876-907): the
    empty-page streak, accumulation of new normalized links, the
    no-new-links streak, and the conditional delay; a fetch error (an
    uncaught ajax exception) propagates.  The continue after an empty page
    skips the delay, as in the source. -/
def crawlStepAfter (delay_s : ℚ) (pg : Nat) (all : List Url) (es nns : Nat) :
    List Ev × Except String (List Url) → List Ev × Step
  | (evs, .error e) => (evs ++ [Ev.brk pg], .halt (.error e))
  | (evs, .ok pls) =>
    if pls = [] then
      if es + 1 ≥ 2 then (evs ++ [Ev.page pg [] [], Ev.brk pg], .halt (.ok all))
      else (evs ++ [Ev.page pg [] []], .next all (es + 1) nns)
    else
      if (dedupFirstAux all (pls.map strip_language_param)).length = 0 then
        if nns + 1 ≥ 2 then
          (evs ++ [Ev.page pg pls (dedupFirstAux all (pls.map strip_language_param)), Ev.brk pg],
            .halt (.ok (all ++ dedupFirstAux all (pls.map strip_language_param))))
        else
          (evs ++ [Ev.page pg pls (dedupFirstAux all (pls.map strip_language_param))] ++
              (if 0 < delay_s then [Ev.sleep pg] else []),
            .next (all ++ dedupFirstAux all (pls.map strip_language_param)) 0 (nns + 1))
      else
        (evs ++ [Ev.page pg pls (dedupFirstAux all (pls.map strip_language_param))] ++
            (if 0 < delay_s then [Ev.sleep pg] else []),
          .next (all ++ dedupFirstAux all (pls.map strip_language_param)) 0 0)

/-- One iteration of the page loop (lines 842-907): stop-flag poll, the two
    fetch attempts, then the page processing. -/
def crawlStep (env : CrawlEnv) (tab : TabDef) (exposed : List (String × String))
    (delay_s : ℚ) (pg : Nat) (all : List Url) (es nns : Nat) : List Ev × Step :=
  if env.stopPage pg then ([], .halt (.ok all))
  else crawlStepAfter delay_s pg all es nns (fetchPage env tab exposed pg)

/-- The page loop, by recursion on the remaining page budget; pg is the
    current page index. -/
def crawlPages (env : CrawlEnv) (tab : TabDef) (exposed : List (String × String))
    (delay_s : ℚ) : Nat → Nat → List Url → Nat → Nat → List Ev × Except String (List Url)
  | _, 0, all, _, _ => ([], .ok all)
  | pg, fuel + 1, all, es, nns =>
    match crawlStep env tab exposed delay_s pg all es nns with
    | (evs, .halt r) => (evs, r)
    | (evs, .next all' es' nns') =>
      let rest := crawlPages env tab exposed delay_s (pg + 1) fuel all' es' nns'
      (evs ++ rest.1, rest.2)

/-- The periodical expansion loop (lines 759-782): per container page the
    stop poll, the fetch with failures logged and skipped, the append of
    unseen viewer links, and the delay.  idx is the 1-based loop counter. -/
def expandAux (env : CrawlEnv) (delay_s : ℚ) : Nat → List Url → List Url → List Ev × List Url
  | _, [], out => ([], out)
  | idx, purl :: rest, out =>
    if env.stopExp idx then ([], out)
    else
      match env.expFetch purl with
      | .error _ =>
        (Ev.expGet purl :: (expandAux env delay_s (idx + 1) rest out).1,
          (expandAux env delay_s (idx + 1) rest out).2)
      | .ok h =>
        (Ev.expGet purl :: Ev.expPage purl (extract_iipimage_ids_anywhere h.text) ::
            ((if 0 < delay_s then [Ev.expSleep idx] else []) ++
              (expandAux env delay_s (idx + 1) rest
                (out ++ dedupFirstAux out ((extract_iipimage_ids_anywhere h.text).map
                  (fun pid => strip_language_param (mkViewer pid))))).1),
          (expandAux env delay_s (idx + 1) rest
            (out ++ dedupFirstAux out ((extract_iipimage_ids_anywhere h.text).map
              (fun pid => strip_language_param (mkViewer pid))))).2)

/-- expand_periodicals_via_periodical_pages of src/main.py (lines 742-794):
    select the container pages, return the input unchanged when there are
    none, otherwise expand and keep only the viewer-form links, stripped
    and first-occurrence deduplicated. -/
def expand_periodicals_via_periodical_pages (env : CrawlEnv) (links : List Url)
    (delay_s : ℚ) : List Ev × List Url :=
  let periodical_pages := links.filter (fun u => urlContains u "/periodical/")
  if periodical_pages = [] then ([], links)
  else
    let r := expandAux env delay_s 1 periodical_pages links
    (r.1, dedupFirst ((r.2.map strip_language_param).filter (fun u => urlContains u "/iipimage/")))

/-- The final dedup pass of crawl_tab_links (lines 918-925). -/
def finalDedup (l : List Url) : List Url :=
  dedupFirst (l.map strip_language_param)

/-- The part of crawl_tab_links after view-info validation: the page loop,
    the periodical expansion, and the final dedup pass. -/
def crawlMain (env : CrawlEnv) (tab : TabDef) (exposed : List (String × String))
    (max_pages : Nat) (delay_s : ℚ) (bootEvs : List Ev) : List Ev × Except String (List Url) :=
  match crawlPages env tab exposed delay_s 0 max_pages [] 0 0 with
  | (tr, .error e) => (bootEvs ++ tr, .error e)
  | (tr, .ok all_links) =>
    if tab.key = "periodical" then
      (bootEvs ++ tr ++ (expand_periodicals_via_periodical_pages env all_links delay_s).1,
        .ok (finalDedup (expand_periodicals_via_periodical_pages env all_links delay_s).2))
    else (bootEvs ++ tr, .ok (finalDedup all_links))

/-- The bare-page re-fetch branch of the view-info cascade, applied to the
    boot oracle's answer. -/
def crawlBoot (env : CrawlEnv) (tab : TabDef) (exposed : List (String × String))
    (view_info : ViewInfo) (max_pages : Nat) (delay_s : ℚ) :
    Except String BootDoc → List Ev × Except String (List Url)
  | .error e => ([Ev.bootGet], .error e)
  | .ok b =>
    if pyOr view_info.view_dom_id b.viewInfo.view_dom_id = "" then
      ([Ev.bootGet], .error "Konnte view_dom_id nicht ermitteln.")
    else if pyOr view_info.view_display_id b.viewInfo.view_display_id = "" then
      ([Ev.bootGet], .error "Konnte view_display_id nicht ermitteln.")
    else crawlMain env tab exposed max_pages delay_s [Ev.bootGet]

/-- crawl_tab_links of src/main.py (lines 800-926).  The view-info cascade
    of lines 813-832: when the dom id or the display id is missing the bare
    category page is re-fetched and missing fields are filled from it; if
    either is still missing the crawl raises.  view_name, theme and token
    are likewise cascaded and are carried into the ajax oracle. -/
def crawl_tab_links (env : CrawlEnv) (tab : TabDef) (exposed : List (String × String))
    (view_info : ViewInfo) (max_pages : Nat) (delay_s : ℚ) : List Ev × Except String (List Url) :=
  if view_info.view_dom_id = "" ∨ view_info.view_display_id = "" then
    crawlBoot env tab exposed view_info max_pages delay_s env.boot
  else crawlMain env tab exposed max_pages delay_s []

/-! Ghost views of the trace. -/

/-- The raw links one event contributes to the discovery stream. -/
def evDiscovered : Ev → List Url
  | .page _ pls _ => pls
  | .expPage _ ids => ids.map (fun pid => strip_language_param (mkViewer pid))
  | _ => []

/-- The discovery stream of a trace: every extracted link, in extraction
    order, before duplicate suppression. -/
def discoveredOf : List Ev → List Url
  | [] => []
  | ev :: tr => evDiscovered ev ++ discoveredOf tr

/-- The page index a loop event belongs to (none for events outside the
    page loop). -/
def loopIdx : Ev → Option Nat
  | .get p => some p
  | .ajaxCall p _ => some p
  | .page p _ _ => some p
  | .sleep p => some p
  | .brk p => some p
  | _ => none

/-- Recognizer of direct page fetch events. -/
def isGetB : Ev → Bool
  | .get _ => true
  | _ => false

/-- Length of a successful result (zero for a raised error). -/
def resultLen : Except String (List Url) → Nat
  | .ok l => l.length
  | .error _ => 0

/-- The extracted link list the loop would see for page p from the direct
    fetch alone (empty both for a fetch error and for a hit-free page). -/
def directExtract (env : CrawlEnv) (tab : TabDef) (pg : Nat) : List Url :=
  match env.direct pg with
  | .ok h => extract_links_from_html tab h
  | .error _ => []

/-! Normalization lemmas. -/

/-- Closed form of strip_language_param: all three source branches produce
    the filtered query and an empty fragment. -/
theorem strip_language_param_eq (u : Url) : strip_language_param u =
    { u with
      query := u.query.filter (fun kv => strLower kv.1 ≠ "language")
      fragment := "" } := by
  unfold strip_language_param
  by_cases h0 : u = Url.empty
  · subst h0
    rfl
  · by_cases hq : u.query = []
    · rw [if_neg h0, if_pos hq, hq]
      rfl
    · rw [if_neg h0, if_neg hq]

/-- strip_language_param is idempotent. -/
theorem strip_language_param_idem (u : Url) :
    strip_language_param (strip_language_param u) = strip_language_param u := by
  rw [strip_language_param_eq, strip_language_param_eq]
  simp [List.filter_filter]

/-- Every value in the image of strip_language_param is a fixed point. -/
theorem strip_fix {u x : Url} (h : x = strip_language_param u) :
    strip_language_param x = x := by
  subst h
  exact strip_language_param_idem u

/-- Viewer links carry no query and no fragment, so stripping fixes them. -/
theorem strip_mkViewer (pid : String) :
    strip_language_param (mkViewer pid) = mkViewer pid := by
  rw [strip_language_param_eq]
  rfl

/-- Mapping strip_language_param over a list of fixed points is the
    identity. -/
theorem map_strip_eq_self {l : List Url} (h : ∀ x ∈ l, strip_language_param x = x) :
    l.map strip_language_param = l := by
  induction l with
  | nil => rfl
  | cons x xs ih =>
    rw [List.map_cons, h x (List.mem_cons_self _ _),
      ih (fun z hz => h z (List.mem_cons_of_mem _ hz))]

/-- mkViewer is injective. -/
theorem mkViewer_injective : Function.Injective mkViewer := by
  intro a b hab
  have hpath : "/iipimage/" ++ a = "/iipimage/" ++ b := congrArg Url.path hab
  rcases a with ⟨la⟩
  rcases b with ⟨lb⟩
  have : ("/iipimage/".data ++ la) = ("/iipimage/".data ++ lb) :=
    congrArg String.data hpath
  exact congrArg String.mk (List.append_cancel_left this)

/-- Outputs of normalize_pf_link are strip-fixed points. -/
theorem normalize_pf_link_strip_fix {tab : TabDef} {href u : Url}
    (h : normalize_pf_link tab href = some u) : strip_language_param u = u := by
  unfold normalize_pf_link at h
  by_cases h0 : href = Url.empty
  · rw [if_pos h0] at h
    cases h
  · rw [if_neg h0] at h
    set full := urljoinBase href with hfull
    by_cases h1 : ¬ strEndsWith full.netloc "portafontium.eu"
    · rw [if_pos h1] at h
      cases h
    · rw [if_neg h1] at h
      by_cases h2 : ¬ tab.allowed_prefixes.any (fun pref => strStartsWith full.path pref)
      · rw [if_pos h2] at h
        cases h
      · rw [if_neg h2] at h
        by_cases h3 : tab.prefer_iipimage_root && strStartsWith full.path "/iipimage/"
        · rw [if_pos h3] at h
          by_cases h4 : (full.path.data.drop 10).takeWhile Char.isDigit ≠ []
          · rw [if_pos h4] at h
            cases h
            exact strip_mkViewer _
          · rw [if_neg h4] at h
            cases h
            exact strip_fix rfl
        · rw [if_neg h3] at h
          cases h
          exact strip_fix rfl

/-- A link with an added locale query parameter (the parameter the site
    appends as language=lang). -/
def addLanguageParam (u : Url) (v : String) : Url :=
  { u with query := u.query ++ [("language", v)] }

/-- Stripping a link with an added locale parameter equals stripping the
    link without it. -/
theorem strip_addLanguageParam (u : Url) (v : String) :
    strip_language_param (addLanguageParam u v) = strip_language_param u := by
  have hl : strLower "language" = "language" := rfl
  rw [strip_language_param_eq, strip_language_param_eq]
  unfold addLanguageParam
  simp [List.filter_append, hl]

/-! Extraction lemmas. -/

/-- Dedup of an appended list: the second part is deduped against the kept
    part of the first. -/
theorem dedupFirst_append_aux {α : Type} [DecidableEq α] (a b : List α) :
    dedupFirst (a ++ b) = dedupFirst a ++ dedupFirstAux (dedupFirst a) b := by
  rw [dedupFirst, dedupFirstAux_append]
  congr 1
  refine dedupFirstAux_congr (fun z => ?_) b
  constructor
  · intro hz
    rw [List.append_nil] at hz
    exact mem_dedupFirstAux.mpr ⟨hz, List.not_mem_nil z⟩
  · intro hz
    rw [List.append_nil]
    exact (mem_dedupFirstAux.mp hz).1

/-- extract_links_from_html is the first-occurrence dedup of its raw
    extraction stream. -/
theorem extract_eq_dedup_stream (tab : TabDef) (h : Html) :
    extract_links_from_html tab h = dedupFirst (extractStream tab h) := by
  unfold extract_links_from_html extractStream
  by_cases hb : tab.key ≠ "periodical" ∧ extract_iipimage_ids_anywhere h.text ≠ [] ∧
      tab.prefer_iipimage_only_if_present = true
  · rw [if_pos hb, if_pos hb]
  · rw [if_neg hb, if_neg hb]
    by_cases hp : tab.key = "periodical"
    · rw [if_pos hp, if_pos hp]
      exact (dedupFirst_append_aux _ _).symm
    · rw [if_neg hp, if_neg hp, List.append_nil]

/-- Every element of the extraction stream is a strip fixed point. -/
theorem extractStream_strip_fix {tab : TabDef} {h : Html} {x : Url}
    (hx : x ∈ extractStream tab h) : strip_language_param x = x := by
  unfold extractStream at hx
  by_cases hb : tab.key ≠ "periodical" ∧ extract_iipimage_ids_anywhere h.text ≠ [] ∧
      tab.prefer_iipimage_only_if_present = true
  · rw [if_pos hb] at hx
    rcases List.mem_map.mp hx with ⟨pid, _, rfl⟩
    exact strip_mkViewer pid
  · rw [if_neg hb] at hx
    rcases List.mem_append.mp hx with hx1 | hx2
    · rcases List.mem_filterMap.mp hx1 with ⟨href, _, hn⟩
      exact normalize_pf_link_strip_fix hn
    · by_cases hp : tab.key = "periodical"
      · rw [if_pos hp] at hx2
        rcases List.mem_map.mp hx2 with ⟨pid, _, rfl⟩
        exact strip_fix rfl
      · rw [if_neg hp] at hx2
        cases hx2

/-- Every element of an extraction result is a strip fixed point. -/
theorem extract_strip_fix {tab : TabDef} {h : Html} {x : Url}
    (hx : x ∈ extract_links_from_html tab h) : strip_language_param x = x := by
  rw [extract_eq_dedup_stream] at hx
  exact extractStream_strip_fix (mem_dedupFirst.mp hx)

/-- An extraction result has no duplicates. -/
theorem extract_nodup (tab : TabDef) (h : Html) :
    (extract_links_from_html tab h).Nodup := by
  rw [extract_eq_dedup_stream]
  exact dedupFirst_nodup _

/-! Characterization of one loop iteration. -/

/-- Dedup of an appended list, absorbing the kept first part into the seen
    set. -/
theorem dedupFirstAux_append_absorb {α : Type} [DecidableEq α] (all a b : List α) :
    dedupFirstAux all (a ++ b) =
      dedupFirstAux all a ++ dedupFirstAux (all ++ dedupFirstAux all a) b := by
  rw [dedupFirstAux_append]
  congr 1
  refine dedupFirstAux_congr (fun z => ?_) b
  simp only [List.mem_append, mem_dedupFirstAux]
  tauto

/-- The three possible outcomes of the two fetch attempts of one page. -/
theorem fetchPage_char (env : CrawlEnv) (tab : TabDef) (exposed : List (String × String))
    (pg : Nat) :
    (directExtract env tab pg ≠ [] ∧
      fetchPage env tab exposed pg = ([Ev.get pg], .ok (directExtract env tab pg))) ∨
    (directExtract env tab pg = [] ∧ ∃ e, env.ajax pg = .error e ∧
      fetchPage env tab exposed pg = ([Ev.get pg, Ev.ajaxCall pg exposed], .error e)) ∨
    (directExtract env tab pg = [] ∧ ∃ frag, env.ajax pg = .ok frag ∧
      fetchPage env tab exposed pg =
        ([Ev.get pg, Ev.ajaxCall pg exposed], .ok (extract_links_from_html tab frag))) := by
  unfold fetchPage
  have hde : (match env.direct pg with
      | .ok h => extract_links_from_html tab h
      | .error _ => []) = directExtract env tab pg := rfl
  rw [hde]
  by_cases hd : directExtract env tab pg = []
  · rw [if_pos hd]
    cases hax : env.ajax pg with
    | error e => exact Or.inr (Or.inl ⟨hd, e, rfl, rfl⟩)
    | ok frag => exact Or.inr (Or.inr ⟨hd, frag, rfl, rfl⟩)
  · rw [if_neg hd]
    exact Or.inl ⟨hd, rfl⟩

/-- The trace emitted by the fetch attempts. -/
theorem fetchPage_evs {env : CrawlEnv} {tab : TabDef} {exposed : List (String × String)}
    {pg : Nat} {fevs : List Ev} {r : Except String (List Url)}
    (h : fetchPage env tab exposed pg = (fevs, r)) :
    fevs = [Ev.get pg] ∨ fevs = [Ev.get pg, Ev.ajaxCall pg exposed] := by
  rcases fetchPage_char env tab exposed pg with ⟨_, he⟩ | ⟨_, e, _, he⟩ | ⟨_, frag, _, he⟩ <;>
    rw [he] at h <;> cases h
  · exact Or.inl rfl
  · exact Or.inr rfl
  · exact Or.inr rfl

/-- Complete case analysis of one loop iteration. -/
theorem crawlStep_char (env : CrawlEnv) (tab : TabDef) (exposed : List (String × String))
    (d : ℚ) (pg : Nat) (all : List Url) (es nns : Nat) :
    (env.stopPage pg = true ∧
      crawlStep env tab exposed d pg all es nns = ([], .halt (.ok all))) ∨
    (env.stopPage pg = false ∧ ∃ fevs e, fetchPage env tab exposed pg = (fevs, .error e) ∧
      crawlStep env tab exposed d pg all es nns = (fevs ++ [Ev.brk pg], .halt (.error e))) ∨
    (env.stopPage pg = false ∧ ∃ fevs pls, fetchPage env tab exposed pg = (fevs, .ok pls) ∧
      ((pls = [] ∧ 2 ≤ es + 1 ∧ crawlStep env tab exposed d pg all es nns =
          (fevs ++ [Ev.page pg [] [], Ev.brk pg], .halt (.ok all))) ∨
       (pls = [] ∧ es + 1 < 2 ∧ crawlStep env tab exposed d pg all es nns =
          (fevs ++ [Ev.page pg [] []], .next all (es + 1) nns)) ∨
       (pls ≠ [] ∧ dedupFirstAux all (pls.map strip_language_param) = [] ∧ 2 ≤ nns + 1 ∧
        crawlStep env tab exposed d pg all es nns =
          (fevs ++ [Ev.page pg pls (dedupFirstAux all (pls.map strip_language_param)), Ev.brk pg],
            .halt (.ok (all ++ dedupFirstAux all (pls.map strip_language_param))))) ∨
       (pls ≠ [] ∧ dedupFirstAux all (pls.map strip_language_param) = [] ∧ nns + 1 < 2 ∧
        crawlStep env tab exposed d pg all es nns =
          (fevs ++ [Ev.page pg pls (dedupFirstAux all (pls.map strip_language_param))] ++
              (if 0 < d then [Ev.sleep pg] else []),
            .next (all ++ dedupFirstAux all (pls.map strip_language_param)) 0 (nns + 1))) ∨
       (pls ≠ [] ∧ dedupFirstAux all (pls.map strip_language_param) ≠ [] ∧
        crawlStep env tab exposed d pg all es nns =
          (fevs ++ [Ev.page pg pls (dedupFirstAux all (pls.map strip_language_param))] ++
              (if 0 < d then [Ev.sleep pg] else []),
            .next (all ++ dedupFirstAux all (pls.map strip_language_param)) 0 0)))) := by
  by_cases hstop : env.stopPage pg
  · rw [crawlStep, if_pos hstop]
    exact Or.inl ⟨hstop, rfl⟩
  · rcases hf : fetchPage env tab exposed pg with ⟨fevs, fres⟩
    have hcs : crawlStep env tab exposed d pg all es nns =
        crawlStepAfter d pg all es nns (fevs, fres) := by
      rw [crawlStep, if_neg hstop, hf]
    cases fres with
    | error e =>
      exact Or.inr (Or.inl ⟨by simpa using hstop, fevs, e, rfl, by rw [hcs]; rfl⟩)
    | ok pls =>
      refine Or.inr (Or.inr ⟨by simpa using hstop, fevs, pls, rfl, ?_⟩)
      rw [hcs]
      by_cases hpl : pls = []
      · by_cases hes : 2 ≤ es + 1
        · refine Or.inl ⟨hpl, hes, ?_⟩
          simp only [crawlStepAfter]
          rw [if_pos hpl, if_pos hes]
        · refine Or.inr (Or.inl ⟨hpl, by omega, ?_⟩)
          simp only [crawlStepAfter]
          rw [if_pos hpl, if_neg hes]
      · by_cases hlen : (dedupFirstAux all (pls.map strip_language_param)).length = 0
        · have hnil : dedupFirstAux all (pls.map strip_language_param) = [] :=
            List.length_eq_zero.mp hlen
          by_cases hnns : 2 ≤ nns + 1
          · refine Or.inr (Or.inr (Or.inl ⟨hpl, hnil, hnns, ?_⟩))
            simp only [crawlStepAfter]
            rw [if_neg hpl, if_pos hlen, if_pos hnns]
          · refine Or.inr (Or.inr (Or.inr (Or.inl ⟨hpl, hnil, by omega, ?_⟩)))
            simp only [crawlStepAfter]
            rw [if_neg hpl, if_pos hlen, if_neg hnns]
        · have hnil : dedupFirstAux all (pls.map strip_language_param) ≠ [] := by
            intro hc
            rw [hc] at hlen
            exact hlen rfl
          refine Or.inr (Or.inr (Or.inr (Or.inr ⟨hpl, hnil, ?_⟩)))
          simp only [crawlStepAfter]
          rw [if_neg hpl, if_neg hlen]

/-! Trace structure of the page loop. -/

theorem crawlPages_zero (env : CrawlEnv) (tab : TabDef) (exposed : List (String × String))
    (d : ℚ) (pg : Nat) (all : List Url) (es nns : Nat) :
    crawlPages env tab exposed d pg 0 all es nns = ([], .ok all) := rfl

theorem crawlPages_halt {env : CrawlEnv} {tab : TabDef} {exposed : List (String × String)}
    {d : ℚ} {pg : Nat} {all : List Url} {es nns : Nat} {evs : List Ev}
    {r : Except String (List Url)} (fuel : Nat)
    (h : crawlStep env tab exposed d pg all es nns = (evs, .halt r)) :
    crawlPages env tab exposed d pg (fuel + 1) all es nns = (evs, r) := by
  simp only [crawlPages]
  rw [h]

theorem crawlPages_next {env : CrawlEnv} {tab : TabDef} {exposed : List (String × String)}
    {d : ℚ} {pg : Nat} {all all' : List Url} {es nns es' nns' : Nat} {evs : List Ev}
    (fuel : Nat)
    (h : crawlStep env tab exposed d pg all es nns = (evs, .next all' es' nns')) :
    crawlPages env tab exposed d pg (fuel + 1) all es nns =
      (evs ++ (crawlPages env tab exposed d (pg + 1) fuel all' es' nns').1,
        (crawlPages env tab exposed d (pg + 1) fuel all' es' nns').2) := by
  simp only [crawlPages]
  rw [h]

/-- The fetch trace consists of the GET and possibly the ajax call. -/
theorem fetchPage_evs_shape {env : CrawlEnv} {tab : TabDef}
    {exposed : List (String × String)} {pg : Nat} {fevs : List Ev}
    {r : Except String (List Url)} (h : fetchPage env tab exposed pg = (fevs, r)) :
    ∀ ev ∈ fevs, ev = Ev.get pg ∨ ev = Ev.ajaxCall pg exposed := by
  rcases fetchPage_evs h with rfl | rfl <;> intro ev hev <;>
    simp only [List.mem_cons, List.not_mem_nil, or_false] at hev <;> tauto

/-- Every event of one iteration belongs to the current page. -/
theorem crawlStep_trace_shape (env : CrawlEnv) (tab : TabDef)
    (exposed : List (String × String)) (d : ℚ) (pg : Nat) (all : List Url) (es nns : Nat) :
    ∀ ev ∈ (crawlStep env tab exposed d pg all es nns).1,
      ev = Ev.get pg ∨ ev = Ev.ajaxCall pg exposed ∨ ev = Ev.brk pg ∨
      ev = Ev.sleep pg ∨ ∃ pls added, ev = Ev.page pg pls added := by
  have hdevs : ∀ ev ∈ (if 0 < d then [Ev.sleep pg] else []), ev = Ev.sleep pg := by
    intro ev hev
    by_cases hd0 : 0 < d
    · rw [if_pos hd0] at hev
      simpa using hev
    · rw [if_neg hd0] at hev
      cases hev
  rcases crawlStep_char env tab exposed d pg all es nns with
    ⟨_, heq⟩ | ⟨_, fevs, e, hf, heq⟩ | ⟨_, fevs, pls, hf, harm⟩
  · rw [heq]
    intro ev hev
    cases hev
  · rw [heq]
    intro ev hev
    rcases List.mem_append.mp hev with h1 | h2
    · exact (fetchPage_evs_shape hf ev h1).imp id Or.inl
    · simp only [List.mem_cons, List.not_mem_nil, or_false] at h2
      subst h2
      tauto
  · rcases harm with ⟨_, _, heq⟩ | ⟨_, _, heq⟩ | ⟨_, _, _, heq⟩ | ⟨_, _, _, heq⟩ | ⟨_, _, heq⟩ <;>
      rw [heq] <;> intro ev hev
    · rcases List.mem_append.mp hev with h1 | h2
      · exact (fetchPage_evs_shape hf ev h1).imp id Or.inl
      · simp only [List.mem_cons, List.not_mem_nil, or_false] at h2
        rcases h2 with rfl | rfl
        · exact Or.inr (Or.inr (Or.inr (Or.inr ⟨_, _, rfl⟩)))
        · tauto
    · rcases List.mem_append.mp hev with h1 | h2
      · exact (fetchPage_evs_shape hf ev h1).imp id Or.inl
      · simp only [List.mem_cons, List.not_mem_nil, or_false] at h2
        subst h2
        exact Or.inr (Or.inr (Or.inr (Or.inr ⟨_, _, rfl⟩)))
    · rcases List.mem_append.mp hev with h1 | h2
      · exact (fetchPage_evs_shape hf ev h1).imp id Or.inl
      · simp only [List.mem_cons, List.not_mem_nil, or_false] at h2
        rcases h2 with rfl | rfl
        · exact Or.inr (Or.inr (Or.inr (Or.inr ⟨_, _, rfl⟩)))
        · tauto
    · rcases List.mem_append.mp hev with h1 | h2
      · rcases List.mem_append.mp h1 with h3 | h4
        · exact (fetchPage_evs_shape hf ev h3).imp id Or.inl
        · simp only [List.mem_cons, List.not_mem_nil, or_false] at h4
          subst h4
          exact Or.inr (Or.inr (Or.inr (Or.inr ⟨_, _, rfl⟩)))
      · have := hdevs ev h2
        tauto
    · rcases List.mem_append.mp hev with h1 | h2
      · rcases List.mem_append.mp h1 with h3 | h4
        · exact (fetchPage_evs_shape hf ev h3).imp id Or.inl
        · simp only [List.mem_cons, List.not_mem_nil, or_false] at h4
          subst h4
          exact Or.inr (Or.inr (Or.inr (Or.inr ⟨_, _, rfl⟩)))
      · have := hdevs ev h2
        tauto

/-- Every event of one iteration carries the current page index. -/
theorem crawlStep_idx {env : CrawlEnv} {tab : TabDef} {exposed : List (String × String)}
    {d : ℚ} {pg : Nat} {all : List Url} {es nns : Nat} :
    ∀ ev ∈ (crawlStep env tab exposed d pg all es nns).1, loopIdx ev = some pg := by
  intro ev hev
  rcases crawlStep_trace_shape env tab exposed d pg all es nns ev hev with
    rfl | rfl | rfl | rfl | ⟨pls, added, rfl⟩ <;> rfl

/-- Every loop event of the page loop trace carries an index at least the
    starting page. -/
theorem crawlPages_idx (env : CrawlEnv) (tab : TabDef) (exposed : List (String × String))
    (d : ℚ) : ∀ fuel pg all es nns,
    ∀ ev ∈ (crawlPages env tab exposed d pg fuel all es nns).1,
      ∀ p, loopIdx ev = some p → pg ≤ p := by
  intro fuel
  induction fuel with
  | zero =>
    intro pg all es nns ev hev
    cases hev
  | succ fuel ih =>
    intro pg all es nns ev hev p hp
    rcases hs : crawlStep env tab exposed d pg all es nns with ⟨evs, st⟩
    cases st with
    | halt r =>
      rw [crawlPages_halt fuel hs] at hev
      have := crawlStep_idx ev (hs ▸ hev : ev ∈ (crawlStep env tab exposed d pg all es nns).1)
      rw [this] at hp
      cases hp
      exact Nat.le_refl pg
    | next all' es' nns' =>
      rw [crawlPages_next fuel hs] at hev
      rcases List.mem_append.mp hev with h1 | h2
      · have := crawlStep_idx ev (hs ▸ h1 : ev ∈ (crawlStep env tab exposed d pg all es nns).1)
        rw [this] at hp
        cases hp
        exact Nat.le_refl pg
      · exact Nat.le_of_succ_le (ih (pg + 1) all' es' nns' ev h2 p hp)

theorem discoveredOf_append (a b : List Ev) :
    discoveredOf (a ++ b) = discoveredOf a ++ discoveredOf b := by
  induction a with
  | nil => rfl
  | cons ev a' ih =>
    show evDiscovered ev ++ discoveredOf (a' ++ b) = (evDiscovered ev ++ discoveredOf a') ++ _
    rw [ih, List.append_assoc]

/-- The fetch trace contributes nothing to the discovery stream. -/
theorem discoveredOf_fetch {env : CrawlEnv} {tab : TabDef}
    {exposed : List (String × String)} {pg : Nat} {fevs : List Ev}
    {r : Except String (List Url)} (h : fetchPage env tab exposed pg = (fevs, r)) :
    discoveredOf fevs = [] := by
  rcases fetchPage_evs h with rfl | rfl <;> rfl

/-- The delay trace contributes nothing to the discovery stream. -/
theorem discoveredOf_devs (d : ℚ) (pg : Nat) :
    discoveredOf (if 0 < d then [Ev.sleep pg] else []) = [] := by
  by_cases hd0 : 0 < d
  · rw [if_pos hd0]
    rfl
  · rw [if_neg hd0]
    rfl

/-- Accumulation of one iteration: both on a streak break and on a
    continue, the links held afterwards are the links held before plus the
    new normalized links of this page's discovery stream. -/
theorem crawlStep_acc (env : CrawlEnv) (tab : TabDef) (exposed : List (String × String))
    (d : ℚ) (pg : Nat) (all : List Url) (es nns : Nat) :
    (∀ evs r, crawlStep env tab exposed d pg all es nns = (evs, .halt (.ok r)) →
      r = all ++ dedupFirstAux all ((discoveredOf evs).map strip_language_param)) ∧
    (∀ evs all' es' nns', crawlStep env tab exposed d pg all es nns = (evs, .next all' es' nns') →
      all' = all ++ dedupFirstAux all ((discoveredOf evs).map strip_language_param)) := by
  rcases crawlStep_char env tab exposed d pg all es nns with
    ⟨_, heq⟩ | ⟨_, fevs, e, hf, heq⟩ | ⟨_, fevs, pls, hf, harm⟩
  · constructor
    · intro evs r h
      rw [heq] at h
      injection h with h1 h2
      subst h1
      injection h2 with h3
      injection h3 with h4
      subst h4
      simp [discoveredOf, dedupFirstAux_nil]
    · intro evs all' es' nns' h
      rw [heq] at h
      injection h with h1 h2
      cases h2
  · constructor
    · intro evs r h
      rw [heq] at h
      injection h with h1 h2
      cases h2
    · intro evs all' es' nns' h
      rw [heq] at h
      injection h with h1 h2
      cases h2
  · have hdf : discoveredOf fevs = [] := discoveredOf_fetch hf
    rcases harm with ⟨hpl, hes, heq⟩ | ⟨hpl, hes, heq⟩ | ⟨hpl, hdd, hnn, heq⟩ |
      ⟨hpl, hdd, hnn, heq⟩ | ⟨hpl, hdd, heq⟩
    · constructor
      · intro evs r h
        rw [heq] at h
        injection h with h1 h2
        subst h1
        injection h2 with h3
        injection h3 with h4
        subst h4
        rw [discoveredOf_append, hdf]
        simp [discoveredOf, evDiscovered, dedupFirstAux_nil]
      · intro evs all' es' nns' h
        rw [heq] at h
        injection h with h1 h2
        cases h2
    · constructor
      · intro evs r h
        rw [heq] at h
        injection h with h1 h2
        cases h2
      · intro evs all' es' nns' h
        rw [heq] at h
        injection h with h1 h2
        subst h1
        injection h2 with h3 h4 h5
        subst h3
        rw [discoveredOf_append, hdf]
        simp [discoveredOf, evDiscovered, dedupFirstAux_nil]
    · constructor
      · intro evs r h
        rw [heq] at h
        injection h with h1 h2
        subst h1
        injection h2 with h3
        injection h3 with h4
        subst h4
        rw [discoveredOf_append, hdf]
        simp [discoveredOf, evDiscovered]
      · intro evs all' es' nns' h
        rw [heq] at h
        injection h with h1 h2
        cases h2
    · constructor
      · intro evs r h
        rw [heq] at h
        injection h with h1 h2
        cases h2
      · intro evs all' es' nns' h
        rw [heq] at h
        injection h with h1 h2
        subst h1
        injection h2 with h3 h4 h5
        subst h3
        rw [discoveredOf_append, discoveredOf_append, hdf, discoveredOf_devs]
        simp [discoveredOf, evDiscovered]
    · constructor
      · intro evs r h
        rw [heq] at h
        injection h with h1 h2
        cases h2
      · intro evs all' es' nns' h
        rw [heq] at h
        injection h with h1 h2
        subst h1
        injection h2 with h3 h4 h5
        subst h3
        rw [discoveredOf_append, discoveredOf_append, hdf, discoveredOf_devs]
        simp [discoveredOf, evDiscovered]

/-- The page loop returns the links held on entry plus the new normalized
    links of its discovery stream, first-occurrence deduplicated. -/
theorem crawlPages_acc (env : CrawlEnv) (tab : TabDef) (exposed : List (String × String))
    (d : ℚ) : ∀ fuel pg all es nns tr r,
    crawlPages env tab exposed d pg fuel all es nns = (tr, .ok r) →
    r = all ++ dedupFirstAux all ((discoveredOf tr).map strip_language_param) := by
  intro fuel
  induction fuel with
  | zero =>
    intro pg all es nns tr r h
    rw [crawlPages_zero] at h
    injection h with h1 h2
    subst h1
    injection h2 with h3
    subst h3
    simp [discoveredOf, dedupFirstAux_nil]
  | succ fuel ih =>
    intro pg all es nns tr r h
    rcases hs : crawlStep env tab exposed d pg all es nns with ⟨evs, st⟩
    cases st with
    | halt rr =>
      rw [crawlPages_halt fuel hs] at h
      injection h with h1 h2
      subst h1
      subst h2
      exact (crawlStep_acc env tab exposed d pg all es nns).1 evs r hs
    | next all' es' nns' =>
      rw [crawlPages_next fuel hs] at h
      injection h with h1 h2
      subst h1
      rcases ht : crawlPages env tab exposed d (pg + 1) fuel all' es' nns' with ⟨tl, rr⟩
      have h2' : rr = .ok r := by
        rw [ht] at h2
        exact h2
      subst h2'
      have hr : r = all' ++ dedupFirstAux all' ((discoveredOf tl).map strip_language_param) :=
        ih (pg + 1) all' es' nns' tl r ht
      have hall' : all' = all ++ dedupFirstAux all ((discoveredOf evs).map strip_language_param) :=
        (crawlStep_acc env tab exposed d pg all es nns).2 evs all' es' nns' hs
      show r = all ++ dedupFirstAux all
        ((discoveredOf (evs ++ tl)).map strip_language_param)
      rw [discoveredOf_append, List.map_append, dedupFirstAux_append_absorb,
        ← List.append_assoc, ← hall']
      exact hr

/-- Pairwise from a symmetric membership bound. -/
theorem pairwiseOfMem {α : Type} {R : α → α → Prop} :
    ∀ {l : List α}, (∀ a ∈ l, ∀ b ∈ l, R a b) → l.Pairwise R := by
  intro l
  induction l with
  | nil => intro _; exact List.Pairwise.nil
  | cons x xs ih =>
    intro h
    refine List.Pairwise.cons ?_ (ih ?_)
    · intro b hb
      exact h x (List.mem_cons_self _ _) b (List.mem_cons_of_mem _ hb)
    · intro a ha b hb
      exact h a (List.mem_cons_of_mem _ ha) b (List.mem_cons_of_mem _ hb)

/-- Ordering between two loop events by page index. -/
def evLe (e1 e2 : Ev) : Prop :=
  ∀ p1 p2, loopIdx e1 = some p1 → loopIdx e2 = some p2 → p1 ≤ p2

/-- The loop trace is ordered by page index. -/
theorem crawlPages_mono (env : CrawlEnv) (tab : TabDef) (exposed : List (String × String))
    (d : ℚ) : ∀ fuel pg all es nns,
    ((crawlPages env tab exposed d pg fuel all es nns).1).Pairwise evLe := by
  intro fuel
  induction fuel with
  | zero =>
    intro pg all es nns
    rw [crawlPages_zero]
    exact List.Pairwise.nil
  | succ fuel ih =>
    intro pg all es nns
    rcases hs : crawlStep env tab exposed d pg all es nns with ⟨evs, st⟩
    have hevs : ∀ ev ∈ evs, loopIdx ev = some pg := by
      intro ev hev
      exact crawlStep_idx ev (hs ▸ hev : ev ∈ (crawlStep env tab exposed d pg all es nns).1)
    cases st with
    | halt rr =>
      rw [crawlPages_halt fuel hs]
      refine pairwiseOfMem ?_
      intro a ha b hb p1 p2 hp1 hp2
      rw [hevs a ha] at hp1
      rw [hevs b hb] at hp2
      cases hp1
      cases hp2
      exact Nat.le_refl _
    | next all' es' nns' =>
      rw [crawlPages_next fuel hs]
      rw [List.pairwise_append]
      refine ⟨pairwiseOfMem ?_, ih (pg + 1) all' es' nns', ?_⟩
      · intro a ha b hb p1 p2 hp1 hp2
        rw [hevs a ha] at hp1
        rw [hevs b hb] at hp2
        cases hp1
        cases hp2
        exact Nat.le_refl _
      · intro a ha b hb p1 p2 hp1 hp2
        rw [hevs a ha] at hp1
        cases hp1
        have := crawlPages_idx env tab exposed d fuel (pg + 1) all' es' nns' b hb p2 hp2
        omega

/-- An event with a page index below the starting page is not in the loop
    trace. -/
theorem not_mem_crawlPages_of_idx_lt {env : CrawlEnv} {tab : TabDef}
    {exposed : List (String × String)} {d : ℚ} {fuel pg' : Nat} {all : List Url}
    {es nns : Nat} {ev : Ev} {p : Nat} (hidx : loopIdx ev = some p) (hlt : p < pg') :
    ev ∉ (crawlPages env tab exposed d pg' fuel all es nns).1 := by
  intro hc
  have := crawlPages_idx env tab exposed d fuel pg' all es nns ev hc p hidx
  omega

/-- One iteration performs at most one direct GET. -/
theorem crawlStep_gets (env : CrawlEnv) (tab : TabDef) (exposed : List (String × String))
    (d : ℚ) (pg : Nat) (all : List Url) (es nns : Nat) :
    ((crawlStep env tab exposed d pg all es nns).1).countP isGetB ≤ 1 := by
  have hdev : (if 0 < d then [Ev.sleep pg] else []).countP isGetB = 0 := by
    by_cases hd0 : 0 < d
    · rw [if_pos hd0]
      rfl
    · rw [if_neg hd0]
      rfl
  rcases crawlStep_char env tab exposed d pg all es nns with
    ⟨_, heq⟩ | ⟨_, fevs, e, hf, heq⟩ | ⟨_, fevs, pls, hf, harm⟩
  · rw [heq]
    exact Nat.zero_le 1
  · rw [heq]
    rcases fetchPage_evs hf with rfl | rfl <;> simp [List.countP_append, List.countP_cons, isGetB]
  · have hfev : fevs.countP isGetB = 1 := by
      rcases fetchPage_evs hf with rfl | rfl <;> simp [List.countP_cons, isGetB]
    rcases harm with ⟨_, _, heq⟩ | ⟨_, _, heq⟩ | ⟨_, _, _, heq⟩ | ⟨_, _, _, heq⟩ | ⟨_, _, heq⟩ <;>
      rw [heq] <;>
      simp [List.countP_append, List.countP_cons, isGetB, hfev, hdev]

/-- The page loop performs at most as many direct GETs as its remaining
    budget. -/
theorem crawlPages_gets (env : CrawlEnv) (tab : TabDef) (exposed : List (String × String))
    (d : ℚ) : ∀ fuel pg all es nns,
    ((crawlPages env tab exposed d pg fuel all es nns).1).countP isGetB ≤ fuel := by
  intro fuel
  induction fuel with
  | zero =>
    intro pg all es nns
    rw [crawlPages_zero]
    exact Nat.le_refl 0
  | succ fuel ih =>
    intro pg all es nns
    rcases hs : crawlStep env tab exposed d pg all es nns with ⟨evs, st⟩
    have hstep : evs.countP isGetB ≤ 1 := by
      have := crawlStep_gets env tab exposed d pg all es nns
      rw [hs] at this
      exact this
    cases st with
    | halt rr =>
      rw [crawlPages_halt fuel hs]
      show evs.countP isGetB ≤ fuel + 1
      omega
    | next all' es' nns' =>
      rw [crawlPages_next fuel hs]
      show (evs ++ (crawlPages env tab exposed d (pg + 1) fuel all' es' nns').1).countP isGetB ≤
        fuel + 1
      rw [List.countP_append]
      have := ih (pg + 1) all' es' nns'
      omega

/-- Every element of the delay trace is the sleep event. -/
theorem mem_devs {d : ℚ} {pg : Nat} {ev : Ev}
    (h : ev ∈ (if 0 < d then [Ev.sleep pg] else [])) : ev = Ev.sleep pg := by
  by_cases hd0 : 0 < d
  · rw [if_pos hd0] at h
    simpa using h
  · rw [if_neg hd0] at h
    cases h

/-- Entering a page with a live empty-page streak: if that page is again
    empty, the loop stops there and no later page is fetched. -/
theorem crawlPages_E1 (env : CrawlEnv) (tab : TabDef) (exposed : List (String × String))
    (d : ℚ) : ∀ fuel pg all es nns tr r, 1 ≤ es →
    crawlPages env tab exposed d pg fuel all es nns = (tr, r) →
    Ev.page pg [] [] ∈ tr → ∀ q, Ev.get q ∈ tr → q ≤ pg := by
  intro fuel pg all es nns tr r hes h hpage q hget
  cases fuel with
  | zero =>
    rw [crawlPages_zero] at h
    injection h with h1 h2
    subst h1
    cases hpage
  | succ fuel =>
    rcases crawlStep_char env tab exposed d pg all es nns with
      ⟨_, heq⟩ | ⟨_, fevs, e, hf, heq⟩ | ⟨_, fevs, pls, hf, harm⟩
    · rw [crawlPages_halt fuel heq] at h
      injection h with h1 h2
      subst h1
      cases hpage
    · rw [crawlPages_halt fuel heq] at h
      injection h with h1 h2
      subst h1
      rcases List.mem_append.mp hpage with h1 | h2
      · rcases fetchPage_evs_shape hf _ h1 with h' | h' <;> cases h'
      · simp only [List.mem_cons, List.not_mem_nil, or_false] at h2
        cases h2
    · rcases harm with ⟨hpl, harm2, heq⟩ | ⟨hpl, harm2, heq⟩ | ⟨hpl, hdd, hnn, heq⟩ |
        ⟨hpl, hdd, hnn, heq⟩ | ⟨hpl, hdd, heq⟩
      · rw [crawlPages_halt fuel heq] at h
        injection h with h1 h2
        subst h1
        rcases List.mem_append.mp hget with h1 | h2
        · rcases fetchPage_evs_shape hf _ h1 with h' | h'
          · injection h' with hq
            subst hq
            exact Nat.le_refl q
          · cases h'
        · simp only [List.mem_cons, List.not_mem_nil, or_false] at h2
          rcases h2 with h2 | h2 <;> cases h2
      · omega
      · rw [crawlPages_halt fuel heq] at h
        injection h with h1 h2
        subst h1
        rcases List.mem_append.mp hpage with h1 | h2
        · rcases fetchPage_evs_shape hf _ h1 with h' | h' <;> cases h'
        · simp only [List.mem_cons, List.not_mem_nil, or_false] at h2
          rcases h2 with h2 | h2
          · injection h2 with hp hpls hadd
            exact absurd hpls.symm hpl
          · cases h2
      · rw [crawlPages_next fuel heq] at h
        injection h with h1 h2
        subst h1
        rcases List.mem_append.mp hpage with h1 | h2
        · rcases List.mem_append.mp h1 with h3 | h4
          · rcases List.mem_append.mp h3 with h5 | h6
            · rcases fetchPage_evs_shape hf _ h5 with h' | h' <;> cases h'
            · simp only [List.mem_cons, List.not_mem_nil, or_false] at h6
              injection h6 with hp hpls hadd
              exact absurd hpls.symm hpl
          · cases mem_devs h4
        · exact absurd h2 (not_mem_crawlPages_of_idx_lt rfl (Nat.lt_succ_self pg))
      · rw [crawlPages_next fuel heq] at h
        injection h with h1 h2
        subst h1
        rcases List.mem_append.mp hpage with h1 | h2
        · rcases List.mem_append.mp h1 with h3 | h4
          · rcases List.mem_append.mp h3 with h5 | h6
            · rcases fetchPage_evs_shape hf _ h5 with h' | h' <;> cases h'
            · simp only [List.mem_cons, List.not_mem_nil, or_false] at h6
              injection h6 with hp hpls hadd
              exact absurd hpls.symm hpl
          · cases mem_devs h4
        · exact absurd h2 (not_mem_crawlPages_of_idx_lt rfl (Nat.lt_succ_self pg))

/-- Index of an event of one iteration, given the step equation. -/
theorem idx_mem_evs_of_step {env : CrawlEnv} {tab : TabDef}
    {exposed : List (String × String)} {d : ℚ} {pg : Nat} {all : List Url} {es nns : Nat}
    {evs : List Ev} {st : Step} {ev : Ev}
    (hs : crawlStep env tab exposed d pg all es nns = (evs, st)) (h : ev ∈ evs) :
    loopIdx ev = some pg :=
  crawlStep_idx ev (hs ▸ h : ev ∈ (crawlStep env tab exposed d pg all es nns).1)

/-- A GET event of one iteration carries the current page. -/
theorem get_mem_evs_of_step {env : CrawlEnv} {tab : TabDef}
    {exposed : List (String × String)} {d : ℚ} {pg : Nat} {all : List Url} {es nns : Nat}
    {evs : List Ev} {st : Step} {q : Nat}
    (hs : crawlStep env tab exposed d pg all es nns = (evs, st)) (h : Ev.get q ∈ evs) :
    q = pg :=
  Option.some.inj (idx_mem_evs_of_step hs h)

/-- A page event of one iteration carries the current page. -/
theorem page_mem_evs_of_step {env : CrawlEnv} {tab : TabDef}
    {exposed : List (String × String)} {d : ℚ} {pg : Nat} {all : List Url} {es nns : Nat}
    {evs : List Ev} {st : Step} {p : Nat} {a b : List Url}
    (hs : crawlStep env tab exposed d pg all es nns = (evs, st)) (h : Ev.page p a b ∈ evs) :
    p = pg :=
  Option.some.inj (idx_mem_evs_of_step hs h)

/-- Entering a page with a live no-new-links streak: if that page again
    yields links but none new, the loop stops there and no later page is
    fetched. -/
theorem crawlPages_E2 (env : CrawlEnv) (tab : TabDef) (exposed : List (String × String))
    (d : ℚ) : ∀ fuel pg all es nns tr r, 1 ≤ nns →
    crawlPages env tab exposed d pg fuel all es nns = (tr, r) →
    ∀ pls1, pls1 ≠ [] → Ev.page pg pls1 [] ∈ tr → ∀ q, Ev.get q ∈ tr → q ≤ pg := by
  intro fuel pg all es nns tr r hnns h pls1 hpl1 hpage q hget
  cases fuel with
  | zero =>
    rw [crawlPages_zero] at h
    injection h with h1 h2
    subst h1
    cases hpage
  | succ fuel =>
    rcases crawlStep_char env tab exposed d pg all es nns with
      ⟨_, heq⟩ | ⟨_, fevs, e, hf, heq⟩ | ⟨_, fevs, pls, hf, harm⟩
    · rw [crawlPages_halt fuel heq] at h
      injection h with h1 h2
      subst h1
      cases hpage
    · rw [crawlPages_halt fuel heq] at h
      injection h with h1 h2
      subst h1
      rcases List.mem_append.mp hpage with h1 | h2
      · rcases fetchPage_evs_shape hf _ h1 with h' | h' <;> cases h'
      · simp only [List.mem_cons, List.not_mem_nil, or_false] at h2
        cases h2
    · rcases harm with ⟨hpl, harm2, heq⟩ | ⟨hpl, harm2, heq⟩ | ⟨hpl, hdd, hnn, heq⟩ |
        ⟨hpl, hdd, hnn, heq⟩ | ⟨hpl, hdd, heq⟩
      · rw [crawlPages_halt fuel heq] at h
        injection h with h1 h2
        subst h1
        rcases List.mem_append.mp hpage with h1 | h2
        · rcases fetchPage_evs_shape hf _ h1 with h' | h' <;> cases h'
        · simp only [List.mem_cons, List.not_mem_nil, or_false] at h2
          rcases h2 with h2 | h2
          · injection h2 with hp hpls hadd
            exact absurd hpls hpl1
          · cases h2
      · rw [crawlPages_next fuel heq] at h
        injection h with h1 h2
        subst h1
        rcases List.mem_append.mp hpage with h1 | h2
        · rcases List.mem_append.mp h1 with h3 | h4
          · rcases fetchPage_evs_shape hf _ h3 with h' | h' <;> cases h'
          · simp only [List.mem_cons, List.not_mem_nil, or_false] at h4
            injection h4 with hp hpls hadd
            exact absurd hpls hpl1
        · exact absurd h2 (not_mem_crawlPages_of_idx_lt rfl (Nat.lt_succ_self pg))
      · rw [crawlPages_halt fuel heq] at h
        injection h with h1 h2
        subst h1
        rcases List.mem_append.mp hget with h1 | h2
        · rcases fetchPage_evs_shape hf _ h1 with h' | h'
          · injection h' with hq
            subst hq
            exact Nat.le_refl q
          · cases h'
        · simp only [List.mem_cons, List.not_mem_nil, or_false] at h2
          rcases h2 with h2 | h2 <;> cases h2
      · omega
      · rw [crawlPages_next fuel heq] at h
        injection h with h1 h2
        subst h1
        rcases List.mem_append.mp hpage with h1 | h2
        · rcases List.mem_append.mp h1 with h3 | h4
          · rcases List.mem_append.mp h3 with h5 | h6
            · rcases fetchPage_evs_shape hf _ h5 with h' | h' <;> cases h'
            · simp only [List.mem_cons, List.not_mem_nil, or_false] at h6
              injection h6 with hp hpls hadd
              exact absurd hadd.symm hdd
          · cases mem_devs h4
        · exact absurd h2 (not_mem_crawlPages_of_idx_lt rfl (Nat.lt_succ_self pg))

/-- Two consecutive empty pages stop the loop: no page after the second is
    fetched. -/
theorem crawlPages_empty2 (env : CrawlEnv) (tab : TabDef) (exposed : List (String × String))
    (d : ℚ) : ∀ fuel pg all es nns tr r,
    crawlPages env tab exposed d pg fuel all es nns = (tr, r) →
    ∀ p, Ev.page p [] [] ∈ tr → Ev.page (p + 1) [] [] ∈ tr →
    ∀ q, Ev.get q ∈ tr → q ≤ p + 1 := by
  intro fuel
  induction fuel with
  | zero =>
    intro pg all es nns tr r h p hp1 hp2 q hget
    rw [crawlPages_zero] at h
    injection h with h1 h2
    subst h1
    cases hp1
  | succ fuel ih =>
    intro pg all es nns tr r h p hp1 hp2 q hget
    rcases crawlStep_char env tab exposed d pg all es nns with
      ⟨_, heq⟩ | ⟨_, fevs, e, hf, heq⟩ | ⟨_, fevs, pls, hf, harm⟩
    · rw [crawlPages_halt fuel heq] at h
      injection h with h1 h2
      subst h1
      cases hp1
    · rw [crawlPages_halt fuel heq] at h
      injection h with h1 h2
      subst h1
      rcases List.mem_append.mp hp1 with h1 | h2
      · rcases fetchPage_evs_shape hf _ h1 with h' | h' <;> cases h'
      · simp only [List.mem_cons, List.not_mem_nil, or_false] at h2
        cases h2
    · rcases harm with ⟨hpl, harm2, heq⟩ | ⟨hpl, harm2, heq⟩ | ⟨hpl, hdd, hnn, heq⟩ |
        ⟨hpl, hdd, hnn, heq⟩ | ⟨hpl, hdd, heq⟩
      · rw [crawlPages_halt fuel heq] at h
        injection h with h1 h2
        subst h1
        have hppg : p = pg := page_mem_evs_of_step heq hp1
        have hppg2 : p + 1 = pg := page_mem_evs_of_step heq hp2
        omega
      · rw [crawlPages_next fuel heq] at h
        rcases ht : crawlPages env tab exposed d (pg + 1) fuel all (es + 1) nns with ⟨tl, rr⟩
        rw [ht] at h
        injection h with h1 h2
        subst h1
        rcases List.mem_append.mp hp1 with hm1 | hm1
        · have hppg : p = pg := page_mem_evs_of_step heq hm1
          subst hppg
          rcases List.mem_append.mp hp2 with hm2 | hm2
          · have : p + 1 = p := page_mem_evs_of_step heq hm2
            omega
          · rcases List.mem_append.mp hget with hg | hg
            · have : q = p := get_mem_evs_of_step heq hg
              omega
            · exact crawlPages_E1 env tab exposed d fuel (p + 1) all (es + 1) nns tl rr
                (by omega) ht hm2 q hg
        · have hpge : p + 1 ≥ pg + 1 := by
            have := crawlPages_idx env tab exposed d fuel (pg + 1) all (es + 1) nns
              (Ev.page p [] []) (ht ▸ hm1) p rfl
            omega
          rcases List.mem_append.mp hp2 with hm2 | hm2
          · have : p + 1 = pg := page_mem_evs_of_step heq hm2
            omega
          · rcases List.mem_append.mp hget with hg | hg
            · have : q = pg := get_mem_evs_of_step heq hg
              omega
            · exact ih (pg + 1) all (es + 1) nns tl rr ht p hm1 hm2 q hg
      · rw [crawlPages_halt fuel heq] at h
        injection h with h1 h2
        subst h1
        rcases List.mem_append.mp hp1 with h1 | h2
        · rcases fetchPage_evs_shape hf _ h1 with h' | h' <;> cases h'
        · simp only [List.mem_cons, List.not_mem_nil, or_false] at h2
          rcases h2 with h2 | h2
          · injection h2 with hpg hpls hadd
            exact absurd hpls.symm hpl
          · cases h2
      · rw [crawlPages_next fuel heq] at h
        rcases ht : crawlPages env tab exposed d (pg + 1) fuel
          (all ++ dedupFirstAux all (pls.map strip_language_param)) 0 (nns + 1) with ⟨tl, rr⟩
        rw [ht] at h
        injection h with h1 h2
        subst h1
        rcases List.mem_append.mp hp1 with hm1 | hm1
        · rcases List.mem_append.mp hm1 with h3 | h4
          · rcases List.mem_append.mp h3 with h5 | h6
            · rcases fetchPage_evs_shape hf _ h5 with h' | h' <;> cases h'
            · simp only [List.mem_cons, List.not_mem_nil, or_false] at h6
              injection h6 with hpg hpls hadd
              exact absurd hpls.symm hpl
          · cases mem_devs h4
        · have hpge : pg + 1 ≤ p := by
            have := crawlPages_idx env tab exposed d fuel (pg + 1)
              (all ++ dedupFirstAux all (pls.map strip_language_param)) 0 (nns + 1)
              (Ev.page p [] []) (ht ▸ hm1) p rfl
            omega
          rcases List.mem_append.mp hp2 with hm2 | hm2
          · have : p + 1 = pg := page_mem_evs_of_step heq hm2
            omega
          · rcases List.mem_append.mp hget with hg | hg
            · have : q = pg := get_mem_evs_of_step heq hg
              omega
            · exact ih (pg + 1) _ 0 (nns + 1) tl rr ht p hm1 hm2 q hg
      · rw [crawlPages_next fuel heq] at h
        rcases ht : crawlPages env tab exposed d (pg + 1) fuel
          (all ++ dedupFirstAux all (pls.map strip_language_param)) 0 0 with ⟨tl, rr⟩
        rw [ht] at h
        injection h with h1 h2
        subst h1
        rcases List.mem_append.mp hp1 with hm1 | hm1
        · rcases List.mem_append.mp hm1 with h3 | h4
          · rcases List.mem_append.mp h3 with h5 | h6
            · rcases fetchPage_evs_shape hf _ h5 with h' | h' <;> cases h'
            · simp only [List.mem_cons, List.not_mem_nil, or_false] at h6
              injection h6 with hpg hpls hadd
              exact absurd hpls.symm hpl
          · cases mem_devs h4
        · have hpge : pg + 1 ≤ p := by
            have := crawlPages_idx env tab exposed d fuel (pg + 1)
              (all ++ dedupFirstAux all (pls.map strip_language_param)) 0 0
              (Ev.page p [] []) (ht ▸ hm1) p rfl
            omega
          rcases List.mem_append.mp hp2 with hm2 | hm2
          · have : p + 1 = pg := page_mem_evs_of_step heq hm2
            omega
          · rcases List.mem_append.mp hget with hg | hg
            · have : q = pg := get_mem_evs_of_step heq hg
              omega
            · exact ih (pg + 1) _ 0 0 tl rr ht p hm1 hm2 q hg

/-- Two consecutive pages that yield links but none new stop the loop: no
    page after the second is fetched. -/
theorem crawlPages_nonew2 (env : CrawlEnv) (tab : TabDef) (exposed : List (String × String))
    (d : ℚ) : ∀ fuel pg all es nns tr r,
    crawlPages env tab exposed d pg fuel all es nns = (tr, r) →
    ∀ p pls1 pls2, pls1 ≠ [] → pls2 ≠ [] →
    Ev.page p pls1 [] ∈ tr → Ev.page (p + 1) pls2 [] ∈ tr →
    ∀ q, Ev.get q ∈ tr → q ≤ p + 1 := by
  intro fuel
  induction fuel with
  | zero =>
    intro pg all es nns tr r h p pls1 pls2 hpl1 hpl2 hp1 hp2 q hget
    rw [crawlPages_zero] at h
    injection h with h1 h2
    subst h1
    cases hp1
  | succ fuel ih =>
    intro pg all es nns tr r h p pls1 pls2 hpl1 hpl2 hp1 hp2 q hget
    rcases crawlStep_char env tab exposed d pg all es nns with
      ⟨_, heq⟩ | ⟨_, fevs, e, hf, heq⟩ | ⟨_, fevs, pls, hf, harm⟩
    · rw [crawlPages_halt fuel heq] at h
      injection h with h1 h2
      subst h1
      cases hp1
    · rw [crawlPages_halt fuel heq] at h
      injection h with h1 h2
      subst h1
      rcases List.mem_append.mp hp1 with h1 | h2
      · rcases fetchPage_evs_shape hf _ h1 with h' | h' <;> cases h'
      · simp only [List.mem_cons, List.not_mem_nil, or_false] at h2
        cases h2
    · rcases harm with ⟨hpl, harm2, heq⟩ | ⟨hpl, harm2, heq⟩ | ⟨hpl, hdd, hnn, heq⟩ |
        ⟨hpl, hdd, hnn, heq⟩ | ⟨hpl, hdd, heq⟩
      · rw [crawlPages_halt fuel heq] at h
        injection h with h1 h2
        subst h1
        rcases List.mem_append.mp hp1 with h1 | h2
        · rcases fetchPage_evs_shape hf _ h1 with h' | h' <;> cases h'
        · simp only [List.mem_cons, List.not_mem_nil, or_false] at h2
          rcases h2 with h2 | h2
          · injection h2 with hpg hpls hadd
            exact absurd hpls hpl1
          · cases h2
      · rw [crawlPages_next fuel heq] at h
        rcases ht : crawlPages env tab exposed d (pg + 1) fuel all (es + 1) nns with ⟨tl, rr⟩
        rw [ht] at h
        injection h with h1 h2
        subst h1
        rcases List.mem_append.mp hp1 with hm1 | hm1
        · rcases List.mem_append.mp hm1 with h3 | h4
          · rcases fetchPage_evs_shape hf _ h3 with h' | h' <;> cases h'
          · simp only [List.mem_cons, List.not_mem_nil, or_false] at h4
            injection h4 with hpg hpls hadd
            exact absurd hpls hpl1
        · have hpge : pg + 1 ≤ p := by
            have := crawlPages_idx env tab exposed d fuel (pg + 1) all (es + 1) nns
              (Ev.page p pls1 []) (ht ▸ hm1) p rfl
            omega
          rcases List.mem_append.mp hp2 with hm2 | hm2
          · have : p + 1 = pg := page_mem_evs_of_step heq hm2
            omega
          · rcases List.mem_append.mp hget with hg | hg
            · have : q = pg := get_mem_evs_of_step heq hg
              omega
            · exact ih (pg + 1) all (es + 1) nns tl rr ht p pls1 pls2 hpl1 hpl2 hm1 hm2 q hg
      · rw [crawlPages_halt fuel heq] at h
        injection h with h1 h2
        subst h1
        have hppg2 : p + 1 = pg := page_mem_evs_of_step heq hp2
        have hppg : p = pg := page_mem_evs_of_step heq hp1
        omega
      · rw [crawlPages_next fuel heq] at h
        rcases ht : crawlPages env tab exposed d (pg + 1) fuel
          (all ++ dedupFirstAux all (pls.map strip_language_param)) 0 (nns + 1) with ⟨tl, rr⟩
        rw [ht] at h
        injection h with h1 h2
        subst h1
        rcases List.mem_append.mp hp1 with hm1 | hm1
        · have hppg : p = pg := page_mem_evs_of_step heq hm1
          subst hppg
          rcases List.mem_append.mp hp2 with hm2 | hm2
          · have : p + 1 = p := page_mem_evs_of_step heq hm2
            omega
          · rcases List.mem_append.mp hget with hg | hg
            · have : q = p := get_mem_evs_of_step heq hg
              omega
            · exact crawlPages_E2 env tab exposed d fuel (p + 1)
                (all ++ dedupFirstAux all (pls.map strip_language_param)) 0 (nns + 1) tl rr
                (by omega) ht pls2 hpl2 hm2 q hg
        · have hpge : pg + 1 ≤ p := by
            have := crawlPages_idx env tab exposed d fuel (pg + 1)
              (all ++ dedupFirstAux all (pls.map strip_language_param)) 0 (nns + 1)
              (Ev.page p pls1 []) (ht ▸ hm1) p rfl
            omega
          rcases List.mem_append.mp hp2 with hm2 | hm2
          · have : p + 1 = pg := page_mem_evs_of_step heq hm2
            omega
          · rcases List.mem_append.mp hget with hg | hg
            · have : q = pg := get_mem_evs_of_step heq hg
              omega
            · exact ih (pg + 1) _ 0 (nns + 1) tl rr ht p pls1 pls2 hpl1 hpl2 hm1 hm2 q hg
      · rw [crawlPages_next fuel heq] at h
        rcases ht : crawlPages env tab exposed d (pg + 1) fuel
          (all ++ dedupFirstAux all (pls.map strip_language_param)) 0 0 with ⟨tl, rr⟩
        rw [ht] at h
        injection h with h1 h2
        subst h1
        rcases List.mem_append.mp hp1 with hm1 | hm1
        · rcases List.mem_append.mp hm1 with h3 | h4
          · rcases List.mem_append.mp h3 with h5 | h6
            · rcases fetchPage_evs_shape hf _ h5 with h' | h' <;> cases h'
            · simp only [List.mem_cons, List.not_mem_nil, or_false] at h6
              injection h6 with hpg hpls hadd
              exact absurd hadd.symm hdd
          · cases mem_devs h4
        · have hpge : pg + 1 ≤ p := by
            have := crawlPages_idx env tab exposed d fuel (pg + 1)
              (all ++ dedupFirstAux all (pls.map strip_language_param)) 0 0
              (Ev.page p pls1 []) (ht ▸ hm1) p rfl
            omega
          rcases List.mem_append.mp hp2 with hm2 | hm2
          · have : p + 1 = pg := page_mem_evs_of_step heq hm2
            omega
          · rcases List.mem_append.mp hget with hg | hg
            · have : q = pg := get_mem_evs_of_step heq hg
              omega
            · exact ih (pg + 1) _ 0 0 tl rr ht p pls1 pls2 hpl1 hpl2 hm1 hm2 q hg

/-- A successful fetch of a hit-free direct page went through the ajax
    call, which answered. -/
theorem fetch_ok_of_direct_empty {env : CrawlEnv} {tab : TabDef}
    {exposed : List (String × String)} {pg : Nat} {fevs : List Ev} {pls : List Url}
    (hf : fetchPage env tab exposed pg = (fevs, .ok pls))
    (hde : directExtract env tab pg = []) :
    fevs = [Ev.get pg, Ev.ajaxCall pg exposed] ∧ ∃ frag, env.ajax pg = .ok frag := by
  rcases fetchPage_char env tab exposed pg with ⟨hne, hfe⟩ | ⟨_, e1, _, hfe⟩ |
    ⟨_, frag, hax, hfe⟩
  · exact absurd hde hne
  · rw [hfe] at hf
    injection hf with hf1 hf2
    cases hf2
  · rw [hfe] at hf
    injection hf with hf1 hf2
    exact ⟨hf1.symm, frag, hax⟩

/-- The ajax fallback discipline of the loop: a reached page whose direct
    fetch yields nothing triggers the ajax call for that page, and an ajax
    failure aborts the whole crawl with no later page fetched. -/
theorem crawlPages_ajax (env : CrawlEnv) (tab : TabDef) (exposed : List (String × String))
    (d : ℚ) : ∀ fuel pg all es nns tr r,
    crawlPages env tab exposed d pg fuel all es nns = (tr, r) →
    ∀ p, Ev.get p ∈ tr → directExtract env tab p = [] →
      Ev.ajaxCall p exposed ∈ tr ∧
      (∀ e, env.ajax p = .error e → r = .error e ∧ ∀ q, Ev.get q ∈ tr → q ≤ p) := by
  intro fuel
  induction fuel with
  | zero =>
    intro pg all es nns tr r h p hget hde
    rw [crawlPages_zero] at h
    injection h with h1 h2
    subst h1
    cases hget
  | succ fuel ih =>
    intro pg all es nns tr r h p hget hde
    rcases crawlStep_char env tab exposed d pg all es nns with
      ⟨_, heq⟩ | ⟨_, fevs, e0, hf, heq⟩ | ⟨_, fevs, pls, hf, harm⟩
    · rw [crawlPages_halt fuel heq] at h
      injection h with h1 h2
      subst h1
      cases hget
    · rw [crawlPages_halt fuel heq] at h
      injection h with h1 h2
      subst h1
      subst h2
      have hppg : p = pg := get_mem_evs_of_step heq hget
      subst hppg
      rcases fetchPage_char env tab exposed p with ⟨hne, hfe⟩ | ⟨_, e1, hax, hfe⟩ |
        ⟨_, frag, hax, hfe⟩
      · exact absurd hde hne
      · rw [hfe] at hf
        injection hf with hf1 hf2
        injection hf2 with hf3
        subst hf1
        subst hf3
        constructor
        · exact List.mem_append.mpr (Or.inl (by simp))
        · intro e henv
          have he : (Except.error e : Except String Html) = Except.error e1 :=
            henv.symm.trans hax
          injection he with he2
          subst he2
          refine ⟨rfl, ?_⟩
          intro q hq
          rcases List.mem_append.mp hq with h1 | h2
          · rcases fetchPage_evs_shape hfe _ h1 with h' | h'
            · injection h' with hqe
              omega
            · cases h'
          · simp only [List.mem_cons, List.not_mem_nil, or_false] at h2
            cases h2
      · rw [hfe] at hf
        injection hf with hf1 hf2
        cases hf2
    · rcases harm with ⟨hpl, harm2, heq⟩ | ⟨hpl, harm2, heq⟩ | ⟨hpl, hdd, hnn, heq⟩ |
        ⟨hpl, hdd, hnn, heq⟩ | ⟨hpl, hdd, heq⟩
      · rw [crawlPages_halt fuel heq] at h
        injection h with h1 h2
        subst h1
        subst h2
        have hppg : p = pg := get_mem_evs_of_step heq hget
        subst hppg
        obtain ⟨hfv, frag, hax⟩ := fetch_ok_of_direct_empty hf hde
        constructor
        · exact List.mem_append.mpr (Or.inl (by rw [hfv]; simp))
        · intro e henv
          rw [hax] at henv
          cases henv
      · rw [crawlPages_next fuel heq] at h
        rcases ht : crawlPages env tab exposed d (pg + 1) fuel all (es + 1) nns with ⟨tl, rr⟩
        rw [ht] at h
        injection h with h1 h2
        subst h1
        subst h2
        rcases List.mem_append.mp hget with hg | hg
        · have hppg : p = pg := get_mem_evs_of_step heq hg
          subst hppg
          obtain ⟨hfv, frag, hax⟩ := fetch_ok_of_direct_empty hf hde
          constructor
          · exact List.mem_append.mpr (Or.inl (List.mem_append.mpr (Or.inl (by rw [hfv]; simp))))
          · intro e henv
            rw [hax] at henv
            cases henv
        · obtain ⟨ha, hb⟩ := ih (pg + 1) all (es + 1) nns tl rr ht p hg hde
          have hple : pg + 1 ≤ p := by
            have := crawlPages_idx env tab exposed d fuel (pg + 1) all (es + 1) nns
              (Ev.get p) (ht ▸ hg) p rfl
            omega
          constructor
          · exact List.mem_append.mpr (Or.inr ha)
          · intro e henv
            obtain ⟨hr, hq⟩ := hb e henv
            refine ⟨hr, ?_⟩
            intro q hq2
            rcases List.mem_append.mp hq2 with h1 | h2
            · have : q = pg := get_mem_evs_of_step heq h1
              omega
            · exact hq q h2
      · rw [crawlPages_halt fuel heq] at h
        injection h with h1 h2
        subst h1
        subst h2
        have hppg : p = pg := get_mem_evs_of_step heq hget
        subst hppg
        obtain ⟨hfv, frag, hax⟩ := fetch_ok_of_direct_empty hf hde
        constructor
        · exact List.mem_append.mpr (Or.inl (by rw [hfv]; simp))
        · intro e henv
          rw [hax] at henv
          cases henv
      · rw [crawlPages_next fuel heq] at h
        rcases ht : crawlPages env tab exposed d (pg + 1) fuel
          (all ++ dedupFirstAux all (pls.map strip_language_param)) 0 (nns + 1) with ⟨tl, rr⟩
        rw [ht] at h
        injection h with h1 h2
        subst h1
        subst h2
        rcases List.mem_append.mp hget with hg | hg
        · have hppg : p = pg := get_mem_evs_of_step heq hg
          subst hppg
          obtain ⟨hfv, frag, hax⟩ := fetch_ok_of_direct_empty hf hde
          constructor
          · refine List.mem_append.mpr (Or.inl (List.mem_append.mpr (Or.inl ?_)))
            exact List.mem_append.mpr (Or.inl (by rw [hfv]; simp))
          · intro e henv
            rw [hax] at henv
            cases henv
        · obtain ⟨ha, hb⟩ := ih (pg + 1) _ 0 (nns + 1) tl rr ht p hg hde
          have hple : pg + 1 ≤ p := by
            have := crawlPages_idx env tab exposed d fuel (pg + 1)
              (all ++ dedupFirstAux all (pls.map strip_language_param)) 0 (nns + 1)
              (Ev.get p) (ht ▸ hg) p rfl
            omega
          constructor
          · exact List.mem_append.mpr (Or.inr ha)
          · intro e henv
            obtain ⟨hr, hq⟩ := hb e henv
            refine ⟨hr, ?_⟩
            intro q hq2
            rcases List.mem_append.mp hq2 with h1 | h2
            · have : q = pg := get_mem_evs_of_step heq h1
              omega
            · exact hq q h2
      · rw [crawlPages_next fuel heq] at h
        rcases ht : crawlPages env tab exposed d (pg + 1) fuel
          (all ++ dedupFirstAux all (pls.map strip_language_param)) 0 0 with ⟨tl, rr⟩
        rw [ht] at h
        injection h with h1 h2
        subst h1
        subst h2
        rcases List.mem_append.mp hget with hg | hg
        · have hppg : p = pg := get_mem_evs_of_step heq hg
          subst hppg
          obtain ⟨hfv, frag, hax⟩ := fetch_ok_of_direct_empty hf hde
          constructor
          · refine List.mem_append.mpr (Or.inl (List.mem_append.mpr (Or.inl ?_)))
            exact List.mem_append.mpr (Or.inl (by rw [hfv]; simp))
          · intro e henv
            rw [hax] at henv
            cases henv
        · obtain ⟨ha, hb⟩ := ih (pg + 1) _ 0 0 tl rr ht p hg hde
          have hple : pg + 1 ≤ p := by
            have := crawlPages_idx env tab exposed d fuel (pg + 1)
              (all ++ dedupFirstAux all (pls.map strip_language_param)) 0 0
              (Ev.get p) (ht ▸ hg) p rfl
            omega
          constructor
          · exact List.mem_append.mpr (Or.inr ha)
          · intro e henv
            obtain ⟨hr, hq⟩ := hb e henv
            refine ⟨hr, ?_⟩
            intro q hq2
            rcases List.mem_append.mp hq2 with h1 | h2
            · have : q = pg := get_mem_evs_of_step heq h1
              omega
            · exact hq q h2

/-- A page that contributed new links is followed by the delay event when
    the delay is positive. -/
theorem crawlPages_sleep_new (env : CrawlEnv) (tab : TabDef) (exposed : List (String × String))
    (d : ℚ) : ∀ fuel pg all es nns tr r,
    crawlPages env tab exposed d pg fuel all es nns = (tr, r) →
    ∀ p pls added, Ev.page p pls added ∈ tr → added ≠ [] → 0 < d →
      Ev.sleep p ∈ tr := by
  intro fuel
  induction fuel with
  | zero =>
    intro pg all es nns tr r h p pls added hp hadd hd0
    rw [crawlPages_zero] at h
    injection h with h1 h2
    subst h1
    cases hp
  | succ fuel ih =>
    intro pg all es nns tr r h p pls added hp hadd hd0
    rcases crawlStep_char env tab exposed d pg all es nns with
      ⟨_, heq⟩ | ⟨_, fevs, e0, hf, heq⟩ | ⟨_, fevs, pls0, hf, harm⟩
    · rw [crawlPages_halt fuel heq] at h
      injection h with h1 h2
      subst h1
      cases hp
    · rw [crawlPages_halt fuel heq] at h
      injection h with h1 h2
      subst h1
      rcases List.mem_append.mp hp with h1 | h2
      · rcases fetchPage_evs_shape hf _ h1 with h' | h' <;> cases h'
      · simp only [List.mem_cons, List.not_mem_nil, or_false] at h2
        cases h2
    · rcases harm with ⟨hpl, harm2, heq⟩ | ⟨hpl, harm2, heq⟩ | ⟨hpl, hdd, hnn, heq⟩ |
        ⟨hpl, hdd, hnn, heq⟩ | ⟨hpl, hdd, heq⟩
      · rw [crawlPages_halt fuel heq] at h
        injection h with h1 h2
        subst h1
        rcases List.mem_append.mp hp with h1 | h2
        · rcases fetchPage_evs_shape hf _ h1 with h' | h' <;> cases h'
        · simp only [List.mem_cons, List.not_mem_nil, or_false] at h2
          rcases h2 with h2 | h2
          · injection h2 with hg1 hg2 hg3
            exact absurd hg3 hadd
          · cases h2
      · rw [crawlPages_next fuel heq] at h
        rcases ht : crawlPages env tab exposed d (pg + 1) fuel all (es + 1) nns with ⟨tl, rr⟩
        rw [ht] at h
        injection h with h1 h2
        subst h1
        rcases List.mem_append.mp hp with hm | hm
        · rcases List.mem_append.mp hm with h3 | h4
          · rcases fetchPage_evs_shape hf _ h3 with h' | h' <;> cases h'
          · simp only [List.mem_cons, List.not_mem_nil, or_false] at h4
            injection h4 with hg1 hg2 hg3
            exact absurd hg3 hadd
        · exact List.mem_append.mpr (Or.inr (ih (pg + 1) all (es + 1) nns tl rr ht
            p pls added hm hadd hd0))
      · rw [crawlPages_halt fuel heq] at h
        injection h with h1 h2
        subst h1
        rcases List.mem_append.mp hp with h1 | h2
        · rcases fetchPage_evs_shape hf _ h1 with h' | h' <;> cases h'
        · simp only [List.mem_cons, List.not_mem_nil, or_false] at h2
          rcases h2 with h2 | h2
          · injection h2 with hg1 hg2 hg3
            rw [hdd] at hg3
            exact absurd hg3 hadd
          · cases h2
      · rw [crawlPages_next fuel heq] at h
        rcases ht : crawlPages env tab exposed d (pg + 1) fuel
          (all ++ dedupFirstAux all (pls0.map strip_language_param)) 0 (nns + 1) with ⟨tl, rr⟩
        rw [ht] at h
        injection h with h1 h2
        subst h1
        rcases List.mem_append.mp hp with hm | hm
        · rcases List.mem_append.mp hm with h3 | h4
          · rcases List.mem_append.mp h3 with h5 | h6
            · rcases fetchPage_evs_shape hf _ h5 with h' | h' <;> cases h'
            · simp only [List.mem_cons, List.not_mem_nil, or_false] at h6
              injection h6 with hg1 hg2 hg3
              rw [hdd] at hg3
              exact absurd hg3 hadd
          · cases mem_devs h4
        · exact List.mem_append.mpr (Or.inr (ih (pg + 1) _ 0 (nns + 1) tl rr ht
            p pls added hm hadd hd0))
      · rw [crawlPages_next fuel heq] at h
        rcases ht : crawlPages env tab exposed d (pg + 1) fuel
          (all ++ dedupFirstAux all (pls0.map strip_language_param)) 0 0 with ⟨tl, rr⟩
        rw [ht] at h
        injection h with h1 h2
        subst h1
        rcases List.mem_append.mp hp with hm | hm
        · rcases List.mem_append.mp hm with h3 | h4
          · rcases List.mem_append.mp h3 with h5 | h6
            · rcases fetchPage_evs_shape hf _ h5 with h' | h' <;> cases h'
            · simp only [List.mem_cons, List.not_mem_nil, or_false] at h6
              injection h6 with hg1 hg2 hg3
              subst hg1
              refine List.mem_append.mpr (Or.inl (List.mem_append.mpr (Or.inr ?_)))
              rw [if_pos hd0]
              simp
          · cases mem_devs h4
        · exact List.mem_append.mpr (Or.inr (ih (pg + 1) _ 0 0 tl rr ht
            p pls added hm hadd hd0))

/-- No sleep event of one iteration coexists with a break of the same
    iteration: the delay is skipped on every page that terminates the
    loop. -/
theorem crawlPages_sleep_nobrk (env : CrawlEnv) (tab : TabDef)
    (exposed : List (String × String)) (d : ℚ) : ∀ fuel pg all es nns tr r,
    crawlPages env tab exposed d pg fuel all es nns = (tr, r) →
    ∀ p, Ev.sleep p ∈ tr → Ev.brk p ∉ tr := by
  intro fuel
  induction fuel with
  | zero =>
    intro pg all es nns tr r h p hsl
    rw [crawlPages_zero] at h
    injection h with h1 h2
    subst h1
    cases hsl
  | succ fuel ih =>
    intro pg all es nns tr r h p hsl
    rcases crawlStep_char env tab exposed d pg all es nns with
      ⟨_, heq⟩ | ⟨_, fevs, e0, hf, heq⟩ | ⟨_, fevs, pls, hf, harm⟩
    · rw [crawlPages_halt fuel heq] at h
      injection h with h1 h2
      subst h1
      cases hsl
    · rw [crawlPages_halt fuel heq] at h
      injection h with h1 h2
      subst h1
      rcases List.mem_append.mp hsl with h1 | h2
      · rcases fetchPage_evs_shape hf _ h1 with h' | h' <;> cases h'
      · simp only [List.mem_cons, List.not_mem_nil, or_false] at h2
        cases h2
    · rcases harm with ⟨hpl, harm2, heq⟩ | ⟨hpl, harm2, heq⟩ | ⟨hpl, hdd, hnn, heq⟩ |
        ⟨hpl, hdd, hnn, heq⟩ | ⟨hpl, hdd, heq⟩
      · rw [crawlPages_halt fuel heq] at h
        injection h with h1 h2
        subst h1
        rcases List.mem_append.mp hsl with h1 | h2
        · rcases fetchPage_evs_shape hf _ h1 with h' | h' <;> cases h'
        · simp only [List.mem_cons, List.not_mem_nil, or_false] at h2
          rcases h2 with h2 | h2 <;> cases h2
      · rw [crawlPages_next fuel heq] at h
        rcases ht : crawlPages env tab exposed d (pg + 1) fuel all (es + 1) nns with ⟨tl, rr⟩
        rw [ht] at h
        injection h with h1 h2
        subst h1
        rcases List.mem_append.mp hsl with hm | hm
        · rcases List.mem_append.mp hm with h3 | h4
          · rcases fetchPage_evs_shape hf _ h3 with h' | h' <;> cases h'
          · simp only [List.mem_cons, List.not_mem_nil, or_false] at h4
            cases h4
        · have hple : pg + 1 ≤ p := by
            have := crawlPages_idx env tab exposed d fuel (pg + 1) all (es + 1) nns
              (Ev.sleep p) (ht ▸ hm) p rfl
            omega
          intro hbrk
          rcases List.mem_append.mp hbrk with hb | hb
          · have : p = pg := Option.some.inj (idx_mem_evs_of_step heq hb)
            omega
          · exact ih (pg + 1) all (es + 1) nns tl rr ht p hm hb
      · rw [crawlPages_halt fuel heq] at h
        injection h with h1 h2
        subst h1
        rcases List.mem_append.mp hsl with h1 | h2
        · rcases fetchPage_evs_shape hf _ h1 with h' | h' <;> cases h'
        · simp only [List.mem_cons, List.not_mem_nil, or_false] at h2
          rcases h2 with h2 | h2 <;> cases h2
      · rw [crawlPages_next fuel heq] at h
        rcases ht : crawlPages env tab exposed d (pg + 1) fuel
          (all ++ dedupFirstAux all (pls.map strip_language_param)) 0 (nns + 1) with ⟨tl, rr⟩
        rw [ht] at h
        injection h with h1 h2
        subst h1
        rcases List.mem_append.mp hsl with hm | hm
        · have hppg : p = pg := Option.some.inj (idx_mem_evs_of_step heq hm)
          subst hppg
          intro hbrk
          rcases List.mem_append.mp hbrk with hb | hb
          · rcases List.mem_append.mp hb with h3 | h4
            · rcases List.mem_append.mp h3 with h5 | h6
              · rcases fetchPage_evs_shape hf _ h5 with h' | h' <;> cases h'
              · simp only [List.mem_cons, List.not_mem_nil, or_false] at h6
                cases h6
            · cases mem_devs h4
          · exact not_mem_crawlPages_of_idx_lt
              (show loopIdx (Ev.brk p) = some p from rfl) (Nat.lt_succ_self p) (ht ▸ hb)
        · have hple : pg + 1 ≤ p := by
            have := crawlPages_idx env tab exposed d fuel (pg + 1)
              (all ++ dedupFirstAux all (pls.map strip_language_param)) 0 (nns + 1)
              (Ev.sleep p) (ht ▸ hm) p rfl
            omega
          intro hbrk
          rcases List.mem_append.mp hbrk with hb | hb
          · have : p = pg := Option.some.inj (idx_mem_evs_of_step heq hb)
            omega
          · exact ih (pg + 1) _ 0 (nns + 1) tl rr ht p hm hb
      · rw [crawlPages_next fuel heq] at h
        rcases ht : crawlPages env tab exposed d (pg + 1) fuel
          (all ++ dedupFirstAux all (pls.map strip_language_param)) 0 0 with ⟨tl, rr⟩
        rw [ht] at h
        injection h with h1 h2
        subst h1
        rcases List.mem_append.mp hsl with hm | hm
        · have hppg : p = pg := Option.some.inj (idx_mem_evs_of_step heq hm)
          subst hppg
          intro hbrk
          rcases List.mem_append.mp hbrk with hb | hb
          · rcases List.mem_append.mp hb with h3 | h4
            · rcases List.mem_append.mp h3 with h5 | h6
              · rcases fetchPage_evs_shape hf _ h5 with h' | h' <;> cases h'
              · simp only [List.mem_cons, List.not_mem_nil, or_false] at h6
                cases h6
            · cases mem_devs h4
          · exact not_mem_crawlPages_of_idx_lt
              (show loopIdx (Ev.brk p) = some p from rfl) (Nat.lt_succ_self p) (ht ▸ hb)
        · have hple : pg + 1 ≤ p := by
            have := crawlPages_idx env tab exposed d fuel (pg + 1)
              (all ++ dedupFirstAux all (pls.map strip_language_param)) 0 0
              (Ev.sleep p) (ht ▸ hm) p rfl
            omega
          intro hbrk
          rcases List.mem_append.mp hbrk with hb | hb
          · have : p = pg := Option.some.inj (idx_mem_evs_of_step heq hb)
            omega
          · exact ih (pg + 1) _ 0 0 tl rr ht p hm hb

/-! Lemmas for the periodical expansion pass. -/

/-- Every event of the expansion trace is outside the page loop. -/
theorem expandAux_loopIdx_none (env : CrawlEnv) (d : ℚ) : ∀ rest idx out,
    ∀ ev ∈ (expandAux env d idx rest out).1, loopIdx ev = none := by
  intro rest
  induction rest with
  | nil =>
    intro idx out ev hev
    cases hev
  | cons purl rest ih =>
    intro idx out ev hev
    by_cases hstop : env.stopExp idx
    · have hx : expandAux env d idx (purl :: rest) out = ([], out) := by
        simp only [expandAux]
        rw [if_pos hstop]
      rw [hx] at hev
      cases hev
    · cases hfx : env.expFetch purl with
      | error e =>
        have hx : expandAux env d idx (purl :: rest) out =
            (Ev.expGet purl :: (expandAux env d (idx + 1) rest out).1,
              (expandAux env d (idx + 1) rest out).2) := by
          simp only [expandAux]
          rw [if_neg hstop, hfx]
        rw [hx] at hev
        rcases List.mem_cons.mp hev with rfl | hm
        · rfl
        · exact ih (idx + 1) out ev hm
      | ok hdoc =>
        have hx : expandAux env d idx (purl :: rest) out =
            (Ev.expGet purl :: Ev.expPage purl (extract_iipimage_ids_anywhere hdoc.text) ::
                ((if 0 < d then [Ev.expSleep idx] else []) ++
                  (expandAux env d (idx + 1) rest
                    (out ++ dedupFirstAux out ((extract_iipimage_ids_anywhere hdoc.text).map
                      (fun pid => strip_language_param (mkViewer pid))))).1),
              (expandAux env d (idx + 1) rest
                (out ++ dedupFirstAux out ((extract_iipimage_ids_anywhere hdoc.text).map
                  (fun pid => strip_language_param (mkViewer pid))))).2) := by
          simp only [expandAux]
          rw [if_neg hstop, hfx]
        rw [hx] at hev
        rcases List.mem_cons.mp hev with rfl | hm
        · rfl
        · rcases List.mem_cons.mp hm with rfl | hm2
          · rfl
          · rcases List.mem_append.mp hm2 with h3 | h4
            · by_cases hd0 : 0 < d
              · rw [if_pos hd0] at h3
                simp only [List.mem_cons, List.not_mem_nil, or_false] at h3
                subst h3
                rfl
              · rw [if_neg hd0] at h3
                cases h3
            · exact ih (idx + 1) _ ev h4

/-- Accumulation of the expansion loop: the output is the input plus the
    new viewer links of its discovery stream. -/
theorem expandAux_acc (env : CrawlEnv) (d : ℚ) : ∀ rest idx out,
    (expandAux env d idx rest out).2 =
      out ++ dedupFirstAux out (discoveredOf (expandAux env d idx rest out).1) := by
  intro rest
  induction rest with
  | nil =>
    intro idx out
    simp [expandAux, discoveredOf, dedupFirstAux_nil]
  | cons purl rest ih =>
    intro idx out
    by_cases hstop : env.stopExp idx
    · have hx : expandAux env d idx (purl :: rest) out = ([], out) := by
        simp only [expandAux]
        rw [if_pos hstop]
      rw [hx]
      simp [discoveredOf, dedupFirstAux_nil]
    · cases hfx : env.expFetch purl with
      | error e =>
        have hx : expandAux env d idx (purl :: rest) out =
            (Ev.expGet purl :: (expandAux env d (idx + 1) rest out).1,
              (expandAux env d (idx + 1) rest out).2) := by
          simp only [expandAux]
          rw [if_neg hstop, hfx]
        rw [hx]
        show (expandAux env d (idx + 1) rest out).2 =
          out ++ dedupFirstAux out (discoveredOf (Ev.expGet purl ::
            (expandAux env d (idx + 1) rest out).1))
        have hD : discoveredOf (Ev.expGet purl :: (expandAux env d (idx + 1) rest out).1) =
            discoveredOf (expandAux env d (idx + 1) rest out).1 := by
          show evDiscovered (Ev.expGet purl) ++ _ = _
          rw [show evDiscovered (Ev.expGet purl) = [] from rfl, List.nil_append]
        rw [hD]
        exact ih (idx + 1) out
      | ok hdoc =>
        have hx : expandAux env d idx (purl :: rest) out =
            (Ev.expGet purl :: Ev.expPage purl (extract_iipimage_ids_anywhere hdoc.text) ::
                ((if 0 < d then [Ev.expSleep idx] else []) ++
                  (expandAux env d (idx + 1) rest
                    (out ++ dedupFirstAux out ((extract_iipimage_ids_anywhere hdoc.text).map
                      (fun pid => strip_language_param (mkViewer pid))))).1),
              (expandAux env d (idx + 1) rest
                (out ++ dedupFirstAux out ((extract_iipimage_ids_anywhere hdoc.text).map
                  (fun pid => strip_language_param (mkViewer pid))))).2) := by
          simp only [expandAux]
          rw [if_neg hstop, hfx]
        rw [hx]
        have hdevs : discoveredOf (if 0 < d then [Ev.expSleep idx] else []) = [] := by
          by_cases hd0 : 0 < d
          · rw [if_pos hd0]
            rfl
          · rw [if_neg hd0]
            rfl
        show (expandAux env d (idx + 1) rest _).2 = out ++ dedupFirstAux out _
        have hD : discoveredOf (Ev.expGet purl ::
            Ev.expPage purl (extract_iipimage_ids_anywhere hdoc.text) ::
            ((if 0 < d then [Ev.expSleep idx] else []) ++
              (expandAux env d (idx + 1) rest
                (out ++ dedupFirstAux out ((extract_iipimage_ids_anywhere hdoc.text).map
                  (fun pid => strip_language_param (mkViewer pid))))).1)) =
            (extract_iipimage_ids_anywhere hdoc.text).map
              (fun pid => strip_language_param (mkViewer pid)) ++
            discoveredOf (expandAux env d (idx + 1) rest
              (out ++ dedupFirstAux out ((extract_iipimage_ids_anywhere hdoc.text).map
                (fun pid => strip_language_param (mkViewer pid))))).1 := by
          show evDiscovered (Ev.expGet purl) ++ (evDiscovered (Ev.expPage purl _) ++
            discoveredOf ((if 0 < d then [Ev.expSleep idx] else []) ++ _)) = _
          rw [discoveredOf_append, hdevs, List.nil_append,
            show evDiscovered (Ev.expGet purl) = [] from rfl, List.nil_append]
          rfl
        rw [hD, dedupFirstAux_append_absorb, ← List.append_assoc]
        exact ih (idx + 1) _

/-- Every link in the expansion discovery stream is a strip fixed point. -/
theorem expandAux_discovered_fix (env : CrawlEnv) (d : ℚ) : ∀ rest idx out,
    ∀ x ∈ discoveredOf (expandAux env d idx rest out).1, strip_language_param x = x := by
  intro rest
  induction rest with
  | nil =>
    intro idx out x hx
    cases hx
  | cons purl rest ih =>
    intro idx out x hx
    by_cases hstop : env.stopExp idx
    · have hxq : expandAux env d idx (purl :: rest) out = ([], out) := by
        simp only [expandAux]
        rw [if_pos hstop]
      rw [hxq] at hx
      cases hx
    · cases hfx : env.expFetch purl with
      | error e =>
        have hxq : expandAux env d idx (purl :: rest) out =
            (Ev.expGet purl :: (expandAux env d (idx + 1) rest out).1,
              (expandAux env d (idx + 1) rest out).2) := by
          simp only [expandAux]
          rw [if_neg hstop, hfx]
        rw [hxq] at hx
        have : discoveredOf (Ev.expGet purl :: (expandAux env d (idx + 1) rest out).1) =
            discoveredOf (expandAux env d (idx + 1) rest out).1 := rfl
        rw [this] at hx
        exact ih (idx + 1) out x hx
      | ok hdoc =>
        have hxq : expandAux env d idx (purl :: rest) out =
            (Ev.expGet purl :: Ev.expPage purl (extract_iipimage_ids_anywhere hdoc.text) ::
                ((if 0 < d then [Ev.expSleep idx] else []) ++
                  (expandAux env d (idx + 1) rest
                    (out ++ dedupFirstAux out ((extract_iipimage_ids_anywhere hdoc.text).map
                      (fun pid => strip_language_param (mkViewer pid))))).1),
              (expandAux env d (idx + 1) rest
                (out ++ dedupFirstAux out ((extract_iipimage_ids_anywhere hdoc.text).map
                  (fun pid => strip_language_param (mkViewer pid))))).2) := by
          simp only [expandAux]
          rw [if_neg hstop, hfx]
        rw [hxq] at hx
        have hstep : discoveredOf (Ev.expGet purl ::
            Ev.expPage purl (extract_iipimage_ids_anywhere hdoc.text) ::
            ((if 0 < d then [Ev.expSleep idx] else []) ++
              (expandAux env d (idx + 1) rest
                (out ++ dedupFirstAux out ((extract_iipimage_ids_anywhere hdoc.text).map
                  (fun pid => strip_language_param (mkViewer pid))))).1)) =
            (extract_iipimage_ids_anywhere hdoc.text).map
              (fun pid => strip_language_param (mkViewer pid)) ++
            discoveredOf (expandAux env d (idx + 1) rest
              (out ++ dedupFirstAux out ((extract_iipimage_ids_anywhere hdoc.text).map
                (fun pid => strip_language_param (mkViewer pid))))).1 := by
          have hdevs : discoveredOf (if 0 < d then [Ev.expSleep idx] else []) = [] := by
            by_cases hd0 : 0 < d
            · rw [if_pos hd0]
              rfl
            · rw [if_neg hd0]
              rfl
          show evDiscovered (Ev.expGet purl) ++ (evDiscovered (Ev.expPage purl _) ++
            discoveredOf ((if 0 < d then [Ev.expSleep idx] else []) ++ _)) = _
          rw [discoveredOf_append, hdevs, List.nil_append,
            show evDiscovered (Ev.expGet purl) = [] from rfl, List.nil_append]
          rfl
        rw [hstep] at hx
        rcases List.mem_append.mp hx with h1 | h2
        · rcases List.mem_map.mp h1 with ⟨pid, _, rfl⟩
          exact strip_fix rfl
        · exact ih (idx + 1) _ x h2

/-- The two branches of the expansion pass. -/
theorem expand_char (env : CrawlEnv) (links : List Url) (d : ℚ) :
    (links.filter (fun u => urlContains u "/periodical/") = [] ∧
      expand_periodicals_via_periodical_pages env links d = ([], links)) ∨
    (links.filter (fun u => urlContains u "/periodical/") ≠ [] ∧
      expand_periodicals_via_periodical_pages env links d =
        ((expandAux env d 1 (links.filter (fun u => urlContains u "/periodical/")) links).1,
          dedupFirst
            (((expandAux env d 1 (links.filter (fun u => urlContains u "/periodical/"))
                links).2.map strip_language_param).filter
              (fun u => urlContains u "/iipimage/")))) := by
  by_cases hper : links.filter (fun u => urlContains u "/periodical/") = []
  · refine Or.inl ⟨hper, ?_⟩
    unfold expand_periodicals_via_periodical_pages
    rw [if_pos hper]
  · refine Or.inr ⟨hper, ?_⟩
    unfold expand_periodicals_via_periodical_pages
    rw [if_neg hper]

/-! Assembly of crawl_tab_links. -/

/-- The three branches of the main crawl body. -/
theorem crawlMain_char (env : CrawlEnv) (tab : TabDef) (exposed : List (String × String))
    (mp : Nat) (d : ℚ) (be : List Ev) :
    (∃ tr e, crawlPages env tab exposed d 0 mp [] 0 0 = (tr, .error e) ∧
      crawlMain env tab exposed mp d be = (be ++ tr, .error e)) ∨
    (∃ tr all, crawlPages env tab exposed d 0 mp [] 0 0 = (tr, .ok all) ∧
      tab.key ≠ "periodical" ∧
      crawlMain env tab exposed mp d be = (be ++ tr, .ok (finalDedup all))) ∨
    (∃ tr all tr2 l2, crawlPages env tab exposed d 0 mp [] 0 0 = (tr, .ok all) ∧
      tab.key = "periodical" ∧
      expand_periodicals_via_periodical_pages env all d = (tr2, l2) ∧
      crawlMain env tab exposed mp d be = (be ++ tr ++ tr2, .ok (finalDedup l2))) := by
  rcases hcp : crawlPages env tab exposed d 0 mp [] 0 0 with ⟨tr, res⟩
  cases res with
  | error e =>
    refine Or.inl ⟨tr, e, rfl, ?_⟩
    unfold crawlMain
    rw [hcp]
  | ok all =>
    have h1 : crawlMain env tab exposed mp d be =
        (if tab.key = "periodical" then
          (be ++ tr ++ (expand_periodicals_via_periodical_pages env all d).1,
            .ok (finalDedup (expand_periodicals_via_periodical_pages env all d).2))
        else (be ++ tr, .ok (finalDedup all))) := by
      unfold crawlMain
      rw [hcp]
    by_cases hkey : tab.key = "periodical"
    · rcases hex : expand_periodicals_via_periodical_pages env all d with ⟨tr2, l2⟩
      refine Or.inr (Or.inr ⟨tr, all, tr2, l2, rfl, hkey, hex, ?_⟩)
      rw [h1, if_pos hkey, hex]
    · refine Or.inr (Or.inl ⟨tr, all, rfl, hkey, ?_⟩)
      rw [h1, if_neg hkey]

/-- The bootstrap cascade: the crawl either runs the main body with a
    possibly empty boot trace, or raises before any page is fetched. -/
theorem crawl_tab_links_char (env : CrawlEnv) (tab : TabDef)
    (exposed : List (String × String)) (vi : ViewInfo) (mp : Nat) (d : ℚ) :
    (∃ be, (be = ([] : List Ev) ∨ be = [Ev.bootGet]) ∧
      crawl_tab_links env tab exposed vi mp d = crawlMain env tab exposed mp d be) ∨
    (∃ e, crawl_tab_links env tab exposed vi mp d = ([Ev.bootGet], .error e)) := by
  unfold crawl_tab_links
  by_cases hvi : vi.view_dom_id = "" ∨ vi.view_display_id = ""
  · rw [if_pos hvi]
    cases hb : env.boot with
    | error e => exact Or.inr ⟨e, rfl⟩
    | ok b =>
      have hred : crawlBoot env tab exposed vi mp d (Except.ok b) =
          (if pyOr vi.view_dom_id b.viewInfo.view_dom_id = "" then
            ([Ev.bootGet], .error "Konnte view_dom_id nicht ermitteln.")
          else if pyOr vi.view_display_id b.viewInfo.view_display_id = "" then
            ([Ev.bootGet], .error "Konnte view_display_id nicht ermitteln.")
          else crawlMain env tab exposed mp d [Ev.bootGet]) := rfl
      rw [hred]
      by_cases hdom : pyOr vi.view_dom_id b.viewInfo.view_dom_id = ""
      · rw [if_pos hdom]
        exact Or.inr ⟨"Konnte view_dom_id nicht ermitteln.", rfl⟩
      · rw [if_neg hdom]
        by_cases hdisp : pyOr vi.view_display_id b.viewInfo.view_display_id = ""
        · rw [if_pos hdisp]
          exact Or.inr ⟨"Konnte view_display_id nicht ermitteln.", rfl⟩
        · rw [if_neg hdisp]
          exact Or.inl ⟨[Ev.bootGet], Or.inr rfl, rfl⟩
  · rw [if_neg hvi]
    exact Or.inl ⟨[], Or.inl rfl, rfl⟩

/-! Crawl-level result characterization. -/

/-- Elements kept from a strip-mapped stream are strip fixed points. -/
theorem strip_fix_of_mem_dfa_map {s l : List Url} {x : Url}
    (hx : x ∈ dedupFirstAux s (l.map strip_language_param)) :
    strip_language_param x = x := by
  rcases List.mem_map.mp (mem_dedupFirstAux.mp hx).1 with ⟨y, _, rfl⟩
  exact strip_language_param_idem y

/-- A boot trace contributes nothing to the discovery stream. -/
theorem discoveredOf_boot {be : List Ev} (h : be = [] ∨ be = [Ev.bootGet]) :
    discoveredOf be = [] := by
  rcases h with rfl | rfl <;> rfl

/-- The final dedup pass fixes an already stripped duplicate-free list. -/
theorem finalDedup_fixed {l : List Url} (hfix : ∀ x ∈ l, strip_language_param x = x)
    (hnd : l.Nodup) : finalDedup l = l := by
  unfold finalDedup
  rw [map_strip_eq_self hfix]
  exact dedupFirst_eq_self hnd

/-- Structure of every successful crawl result: duplicate-free stripped
    links, equal to the first-occurrence dedup of the stripped discovery
    stream of the trace, filtered to viewer links for the periodical
    expansion branch. -/
theorem crawl_ok_char (env : CrawlEnv) (tab : TabDef) (exposed : List (String × String))
    (vi : ViewInfo) (mp : Nat) (d : ℚ) (tr : List Ev) (r : List Url)
    (h : crawl_tab_links env tab exposed vi mp d = (tr, .ok r)) :
    r.Nodup ∧ (∀ x ∈ r, strip_language_param x = x) ∧
    (r = dedupFirstAux [] ((discoveredOf tr).map strip_language_param) ∨
      r = (dedupFirstAux [] ((discoveredOf tr).map strip_language_param)).filter
        (fun u => urlContains u "/iipimage/")) := by
  rcases crawl_tab_links_char env tab exposed vi mp d with ⟨be, hbe, heq⟩ | ⟨e, heq⟩
  · rw [heq] at h
    have hbd : discoveredOf be = [] := discoveredOf_boot hbe
    rcases crawlMain_char env tab exposed mp d be with
      ⟨ltr, e, hcp, hmain⟩ | ⟨ltr, all, hcp, hkey, hmain⟩ |
      ⟨ltr, all, tr2, l2, hcp, hkey, hex, hmain⟩
    · rw [hmain] at h
      injection h with h1 h2
      cases h2
    · rw [hmain] at h
      injection h with h1 h2
      subst h1
      injection h2 with h3
      have hall : all = dedupFirstAux [] ((discoveredOf ltr).map strip_language_param) := by
        have := crawlPages_acc env tab exposed d mp 0 [] 0 0 ltr all hcp
        simpa using this
      have hfix : ∀ x ∈ all, strip_language_param x = x := by
        intro x hx
        rw [hall] at hx
        exact strip_fix_of_mem_dfa_map hx
      have hnd : all.Nodup := by
        rw [hall]
        exact dedupFirstAux_nodup _ _
      have hr : r = all := by
        rw [← h3, finalDedup_fixed hfix hnd]
      subst hr
      refine ⟨hnd, hfix, Or.inl ?_⟩
      rw [discoveredOf_append, hbd, List.nil_append, hall]
    · rw [hmain] at h
      injection h with h1 h2
      subst h1
      injection h2 with h3
      have hall : all = dedupFirstAux [] ((discoveredOf ltr).map strip_language_param) := by
        have := crawlPages_acc env tab exposed d mp 0 [] 0 0 ltr all hcp
        simpa using this
      have hfixall : ∀ x ∈ all, strip_language_param x = x := by
        intro x hx
        rw [hall] at hx
        exact strip_fix_of_mem_dfa_map hx
      have hndall : all.Nodup := by
        rw [hall]
        exact dedupFirstAux_nodup _ _
      rcases expand_char env all d with ⟨hper, hexq⟩ | ⟨hper, hexq⟩
      · rw [hexq] at hex
        injection hex with he1 he2
        subst he1
        subst he2
        have hr : r = all := by
          rw [← h3, finalDedup_fixed hfixall hndall]
        subst hr
        refine ⟨hndall, hfixall, Or.inl ?_⟩
        rw [discoveredOf_append, discoveredOf_append, hbd, List.nil_append]
        rw [show discoveredOf ([] : List Ev) = [] from rfl, List.append_nil, hall]
      · rw [hexq] at hex
        injection hex with he1 he2
        have hout : (expandAux env d 1
            (all.filter (fun u => urlContains u "/periodical/")) all).2 =
            all ++ dedupFirstAux all (discoveredOf (expandAux env d 1
              (all.filter (fun u => urlContains u "/periodical/")) all).1) :=
          expandAux_acc env d _ 1 all
        set extr := (expandAux env d 1
          (all.filter (fun u => urlContains u "/periodical/")) all).1 with hextr
        set out2 := (expandAux env d 1
          (all.filter (fun u => urlContains u "/periodical/")) all).2 with hout2
        have hfixD : ∀ x ∈ discoveredOf extr, strip_language_param x = x := by
          intro x hx
          exact expandAux_discovered_fix env d _ 1 all x hx
        have hfix2 : ∀ x ∈ out2, strip_language_param x = x := by
          intro x hx
          rw [hout] at hx
          rcases List.mem_append.mp hx with h4 | h4
          · exact hfixall x h4
          · exact hfixD x (mem_dedupFirstAux.mp h4).1
        have hnd2 : out2.Nodup := by
          rw [hout]
          refine List.Nodup.append hndall (dedupFirstAux_nodup _ _) ?_
          intro x hx1 hx2
          exact (mem_dedupFirstAux.mp hx2).2 hx1
        have hl2 : l2 = out2.filter (fun u => urlContains u "/iipimage/") := by
          rw [← he2, map_strip_eq_self hfix2]
          exact dedupFirst_eq_self (List.Nodup.filter _ hnd2)
        have hfixl2 : ∀ x ∈ l2, strip_language_param x = x := by
          intro x hx
          rw [hl2] at hx
          exact hfix2 x (List.mem_of_mem_filter hx)
        have hndl2 : l2.Nodup := by
          rw [hl2]
          exact List.Nodup.filter _ hnd2
        have hr : r = l2 := by
          rw [← h3, finalDedup_fixed hfixl2 hndl2]
        subst hr
        refine ⟨hndl2, hfixl2, Or.inr ?_⟩
        have hD2 : (discoveredOf extr).map strip_language_param = discoveredOf extr :=
          map_strip_eq_self hfixD
        have hout2eq : out2 = dedupFirstAux []
            ((discoveredOf (ltr ++ extr)).map strip_language_param) := by
          rw [discoveredOf_append, List.map_append, dedupFirstAux_append, hD2]
          rw [hout, hall]
          congr 1
          refine dedupFirstAux_congr (fun z => ?_) _
          rw [List.append_nil]
          constructor
          · intro hz
            exact (mem_dedupFirstAux.mp hz).1
          · intro hz
            exact mem_dedupFirstAux.mpr ⟨hz, List.not_mem_nil z⟩
        rw [hl2, hout2eq]
        have htr : discoveredOf (be ++ ltr ++ extr) = discoveredOf (ltr ++ extr) := by
          rw [List.append_assoc, discoveredOf_append, hbd, List.nil_append]
        rw [← he1, htr]
  · rw [heq] at h
    injection h with h1 h2
    cases h2

/-- Boot trace events are outside the page loop. -/
theorem boot_loopIdx_none {be : List Ev} (h : be = [] ∨ be = [Ev.bootGet]) :
    ∀ ev ∈ be, loopIdx ev = none := by
  rcases h with rfl | rfl
  · intro ev hev
    cases hev
  · intro ev hev
    simp only [List.mem_cons, List.not_mem_nil, or_false] at hev
    subst hev
    rfl

/-- An event with a page index sits in the loop segment of the crawl
    trace. -/
theorem mem_loop_segment {be ltr post : List Ev} {ev : Ev} {p : Nat}
    (hidx : loopIdx ev = some p) (hbe : ∀ e ∈ be, loopIdx e = none)
    (hpost : ∀ e ∈ post, loopIdx e = none) (h : ev ∈ be ++ ltr ++ post) : ev ∈ ltr := by
  rcases List.mem_append.mp h with h1 | h2
  · rcases List.mem_append.mp h1 with h3 | h4
    · rw [hbe ev h3] at hidx
      cases hidx
    · exact h4
  · rw [hpost ev h2] at hidx
    cases hidx

/-- The whole crawl performs at most max_pages direct page GETs. -/
theorem crawl_gets_le (env : CrawlEnv) (tab : TabDef) (exposed : List (String × String))
    (vi : ViewInfo) (mp : Nat) (d : ℚ) :
    ((crawl_tab_links env tab exposed vi mp d).1).countP isGetB ≤ mp := by
  have hzero : ∀ l : List Ev, (∀ ev ∈ l, loopIdx ev = none) → l.countP isGetB = 0 := by
    intro l hl
    rw [List.countP_eq_zero]
    intro ev hev hg
    cases ev <;> simp [isGetB] at hg
    exact absurd (hl _ hev) (by simp [loopIdx])
  rcases crawl_tab_links_char env tab exposed vi mp d with ⟨be, hbe, heq⟩ | ⟨e, heq⟩
  · rw [heq]
    have hbe0 : be.countP isGetB = 0 := hzero be (boot_loopIdx_none hbe)
    rcases crawlMain_char env tab exposed mp d be with
      ⟨ltr, e, hcp, hmain⟩ | ⟨ltr, all, hcp, hkey, hmain⟩ |
      ⟨ltr, all, tr2, l2, hcp, hkey, hex, hmain⟩
    · rw [hmain]
      show (be ++ ltr).countP isGetB ≤ mp
      rw [List.countP_append, hbe0]
      have := crawlPages_gets env tab exposed d mp 0 [] 0 0
      rw [hcp] at this
      simpa using this
    · rw [hmain]
      show (be ++ ltr).countP isGetB ≤ mp
      rw [List.countP_append, hbe0]
      have := crawlPages_gets env tab exposed d mp 0 [] 0 0
      rw [hcp] at this
      simpa using this
    · rw [hmain]
      show (be ++ ltr ++ tr2).countP isGetB ≤ mp
      have htr2 : tr2.countP isGetB = 0 := by
        refine hzero tr2 ?_
        intro ev hev
        have := expandAux_loopIdx_none env d
          (all.filter (fun u => urlContains u "/periodical/")) 1 all ev
        rcases expand_char env all d with ⟨hper, hexq⟩ | ⟨hper, hexq⟩
        · rw [hexq] at hex
          injection hex with he1 he2
          subst he1
          cases hev
        · rw [hexq] at hex
          injection hex with he1 he2
          subst he1
          exact this hev
      rw [List.countP_append, List.countP_append, hbe0, htr2]
      have := crawlPages_gets env tab exposed d mp 0 [] 0 0
      rw [hcp] at this
      simpa using this
  · rw [heq]
    show ([Ev.bootGet]).countP isGetB ≤ mp
    simp [isGetB]

/-- The expansion trace contains no page-loop events. -/
theorem expand_trace_idx_none {env : CrawlEnv} {all : List Url} {d : ℚ}
    {tr2 : List Ev} {l2 : List Url}
    (hex : expand_periodicals_via_periodical_pages env all d = (tr2, l2)) :
    ∀ ev ∈ tr2, loopIdx ev = none := by
  intro ev hev
  rcases expand_char env all d with ⟨_, hexq⟩ | ⟨_, hexq⟩
  · rw [hexq] at hex
    injection hex with he1 he2
    subst he1
    cases hev
  · rw [hexq] at hex
    injection hex with he1 he2
    subst he1
    exact expandAux_loopIdx_none env d
      (all.filter (fun u => urlContains u "/periodical/")) 1 all ev hev

/-- Decomposition of a crawl trace into the boot segment, the page-loop
    segment and the expansion segment, with error propagation from the
    loop. -/
theorem crawl_trace_split (env : CrawlEnv) (tab : TabDef) (exposed : List (String × String))
    (vi : ViewInfo) (mp : Nat) (d : ℚ) (tr : List Ev) (r : Except String (List Url))
    (h : crawl_tab_links env tab exposed vi mp d = (tr, r)) :
    (∃ e, tr = [Ev.bootGet] ∧ r = .error e) ∨
    (∃ be ltr post lres,
      crawlPages env tab exposed d 0 mp [] 0 0 = (ltr, lres) ∧
      tr = be ++ ltr ++ post ∧
      (∀ ev ∈ be, loopIdx ev = none) ∧ (∀ ev ∈ post, loopIdx ev = none) ∧
      (∀ e, lres = Except.error e → r = Except.error e)) := by
  rcases crawl_tab_links_char env tab exposed vi mp d with ⟨be, hbe, heq⟩ | ⟨e, heq⟩
  · rw [heq] at h
    rcases crawlMain_char env tab exposed mp d be with
      ⟨ltr, e, hcp, hmain⟩ | ⟨ltr, all, hcp, hkey, hmain⟩ |
      ⟨ltr, all, tr2, l2, hcp, hkey, hex, hmain⟩
    · rw [hmain] at h
      injection h with h1 h2
      refine Or.inr ⟨be, ltr, [], .error e, hcp, ?_, boot_loopIdx_none hbe, ?_, ?_⟩
      · rw [List.append_nil, h1]
      · intro ev hev
        cases hev
      · intro e2 he2
        injection he2 with he3
        subst he3
        exact h2.symm
    · rw [hmain] at h
      injection h with h1 h2
      refine Or.inr ⟨be, ltr, [], .ok all, hcp, ?_, boot_loopIdx_none hbe, ?_, ?_⟩
      · rw [List.append_nil, h1]
      · intro ev hev
        cases hev
      · intro e2 he2
        cases he2
    · rw [hmain] at h
      injection h with h1 h2
      refine Or.inr ⟨be, ltr, tr2, .ok all, hcp, ?_, boot_loopIdx_none hbe,
        expand_trace_idx_none hex, ?_⟩
      · rw [h1]
      · intro e2 he2
        cases he2
  · rw [heq] at h
    injection h with h1 h2
    exact Or.inl ⟨e, h1.symm, h2.symm⟩

/-- An event without a page index is below every event in the loop order. -/
theorem evLe_of_left_none {e1 e2 : Ev} (h : loopIdx e1 = none) : evLe e1 e2 := by
  intro p1 p2 hp1 hp2
  rw [h] at hp1
  cases hp1

/-- An event without a page index is above every event in the loop order. -/
theorem evLe_of_right_none {e1 e2 : Ev} (h : loopIdx e2 = none) : evLe e1 e2 := by
  intro p1 p2 hp1 hp2
  rw [h] at hp2
  cases hp2

/-- The whole crawl trace is ordered by page index. -/
theorem crawl_mono (env : CrawlEnv) (tab : TabDef) (exposed : List (String × String))
    (vi : ViewInfo) (mp : Nat) (d : ℚ) (tr : List Ev) (r : Except String (List Url))
    (h : crawl_tab_links env tab exposed vi mp d = (tr, r)) : tr.Pairwise evLe := by
  rcases crawl_trace_split env tab exposed vi mp d tr r h with
    ⟨e, htr, _⟩ | ⟨be, ltr, post, lres, hcp, htr, hbe, hpost, _⟩
  · rw [htr]
    exact List.pairwise_singleton _ _
  · rw [htr]
    rw [List.pairwise_append]
    refine ⟨?_, ?_, ?_⟩
    · rw [List.pairwise_append]
      refine ⟨pairwiseOfMem (fun a ha b hb => evLe_of_left_none (hbe a ha)), ?_, ?_⟩
      · have := crawlPages_mono env tab exposed d mp 0 [] 0 0
        rw [hcp] at this
        exact this
      · intro a ha b hb
        exact evLe_of_left_none (hbe a ha)
    · exact pairwiseOfMem (fun a ha b hb => evLe_of_right_none (hpost b hb))
    · intro a ha b hb
      exact evLe_of_right_none (hpost b hb)

/-! Re-normalization lemmas for claim C4. -/

/-- A prefix test against the prefix itself with anything appended. -/
theorem isPrefixOf_append (l s : List Char) : l.isPrefixOf (l ++ s) = true := by
  rw [List.isPrefixOf_iff_prefix]
  exact List.prefix_append l s

/-- A rendered prefix test against the prefix with a suffix appended. -/
theorem strStartsWith_append (p s : String) : strStartsWith (p ++ s) p = true := by
  unfold strStartsWith
  rw [String.data_append]
  exact isPrefixOf_append p.data s.data

/-- urljoinBase is the identity on a URL that already carries a network
    location and a scheme of the shape urljoinBase produces. -/
theorem urljoinBase_fix (u : Url) (hnet : u.netloc ≠ "")
    (hsch : u.scheme = "https" ∨ (u.scheme ≠ "" ∧ u.scheme ≠ "https")) :
    urljoinBase u = u := by
  have hne : u ≠ Url.empty := by
    intro hc
    rw [hc] at hnet
    exact hnet rfl
  rcases hsch with hs | ⟨hs0, hs⟩
  · have e1 : (if u.scheme = "" then "https" else u.scheme) = "https" := by
      by_cases h0 : u.scheme = ""
      · rw [if_pos h0]
      · rw [if_neg h0, hs]
    unfold urljoinBase
    rw [if_neg hne]
    simp only [e1, ne_eq, not_true_eq_false, if_false, ite_not]
    rw [if_neg hnet]
    rw [← hs]
  · have e1 : (if u.scheme = "" then "https" else u.scheme) = u.scheme := if_neg hs0
    unfold urljoinBase
    rw [if_neg hne]
    simp only [e1]
    rw [if_pos hs]

/-- The scheme after urljoinBase: https, or the nonempty non-https scheme
    of a URL urljoinBase passed through unchanged. -/
theorem urljoinBase_scheme_cases (href : Url) :
    (urljoinBase href).scheme = "https" ∨
      ((urljoinBase href).scheme ≠ "" ∧ (urljoinBase href).scheme ≠ "https") := by
  by_cases hne : href = Url.empty
  · subst hne
    left
    rfl
  · by_cases hss : (if href.scheme = "" then "https" else href.scheme) = "https"
    · left
      unfold urljoinBase
      rw [if_neg hne]
      simp only [hss, ne_eq, not_true_eq_false, if_false, ite_not]
      split_ifs <;> rfl
    · right
      have hs0 : href.scheme ≠ "" := by
        intro hc
        exact hss (by rw [if_pos hc])
      have hsh : href.scheme ≠ "https" := by
        intro hc
        exact hss (by rw [if_neg hs0, hc])
      have e : urljoinBase href = href := by
        unfold urljoinBase
        rw [if_neg hne]
        simp only [if_neg hs0]
        rw [if_pos hsh]
      rw [e]
      exact ⟨hs0, hsh⟩

/-- Re-normalizing the strip-branch output of normalize_pf_link returns it
    unchanged. -/
theorem normalize_strip_branch_fix (tab : TabDef) (full : Url)
    (hnet : full.netloc ≠ "")
    (hsch : full.scheme = "https" ∨ (full.scheme ≠ "" ∧ full.scheme ≠ "https"))
    (hend : strEndsWith full.netloc "portafontium.eu" = true)
    (hpre : tab.allowed_prefixes.any (fun pref => strStartsWith full.path pref) = true)
    (hcase : (tab.prefer_iipimage_root && strStartsWith full.path "/iipimage/") = false ∨
      (full.path.data.drop 10).takeWhile Char.isDigit = []) :
    normalize_pf_link tab (strip_language_param { full with fragment := "" }) =
      some (strip_language_param { full with fragment := "" }) := by
  set u := strip_language_param { full with fragment := "" } with hu
  have huq : u = { full with
      query := full.query.filter (fun kv => strLower kv.1 ≠ "language")
      fragment := "" } := by
    rw [hu, strip_language_param_eq]
  have hus : u.scheme = full.scheme := by rw [huq]
  have hun : u.netloc = full.netloc := by rw [huq]
  have hup : u.path = full.path := by rw [huq]
  have hune : u ≠ Url.empty := by
    intro hc
    rw [hc] at hun
    exact hnet hun.symm
  have hjoin : urljoinBase u = u :=
    urljoinBase_fix u (by rw [hun]; exact hnet) (by rw [hus]; exact hsch)
  have hfrag : Url.mk u.scheme full.netloc full.path u.params u.query "" = u := by
    rw [huq]
  unfold normalize_pf_link
  rw [if_neg hune]
  simp only [hjoin, hun, hup]
  rw [if_neg (not_not_intro hend), if_neg (not_not_intro hpre)]
  rcases hcase with hb | hds
  · have hbf : ¬ ((tab.prefer_iipimage_root && strStartsWith full.path "/iipimage/") = true) := by
      rw [hb]
      exact Bool.false_ne_true
    rw [if_neg hbf]
    rw [hfrag, hu, strip_language_param_idem]
  · by_cases hb2 : (tab.prefer_iipimage_root && strStartsWith full.path "/iipimage/") = true
    · rw [if_pos hb2, if_neg (not_not_intro hds)]
      rw [hfrag, hu, strip_language_param_idem]
    · rw [if_neg hb2]
      rw [hfrag, hu, strip_language_param_idem]

/-- Re-normalizing a canonical viewer link built from a nonempty digit
    string returns it unchanged, for any tab accepting the viewer prefix. -/
theorem normalize_mkViewer_fix (tab : TabDef) (hroot : tab.prefer_iipimage_root = true)
    (hiip : "/iipimage/" ∈ tab.allowed_prefixes) (ds : List Char) (hds : ds ≠ [])
    (hdig : ∀ c ∈ ds, c.isDigit = true) :
    normalize_pf_link tab (mkViewer (String.mk ds)) = some (mkViewer (String.mk ds)) := by
  set u := mkViewer (String.mk ds) with hu
  have hun : u.netloc = "www.portafontium.eu" := rfl
  have hus : u.scheme = "https" := rfl
  have hpath : u.path = "/iipimage/" ++ String.mk ds := rfl
  have hune : u ≠ Url.empty := by
    intro hc
    have h2 := congrArg Url.netloc hc
    rw [hun] at h2
    exact absurd h2 (by decide)
  have hjoin : urljoinBase u = u :=
    urljoinBase_fix u (by rw [hun]; decide) (Or.inl hus)
  have hendb : strEndsWith u.netloc "portafontium.eu" = true := by
    rw [hun]
    decide
  have hpre : (tab.allowed_prefixes.any fun pref => strStartsWith u.path pref) = true := by
    rw [List.any_eq_true]
    refine ⟨"/iipimage/", hiip, ?_⟩
    rw [hpath]
    exact strStartsWith_append _ _
  have hcond : (tab.prefer_iipimage_root && strStartsWith u.path "/iipimage/") = true := by
    rw [hroot, hpath, strStartsWith_append]
    rfl
  have hdata : u.path.data = "/iipimage/".data ++ ds := by
    rw [hpath, String.data_append]
  have hdrop : (u.path.data.drop 10).takeWhile Char.isDigit = ds := by
    rw [hdata]
    rw [show (10 : Nat) = ("/iipimage/".data).length from rfl, List.drop_left]
    rw [List.takeWhile_eq_self_iff]
    intro a ha
    rw [hdig a ha]
  unfold normalize_pf_link
  rw [if_neg hune]
  simp only [hjoin]
  rw [if_neg (not_not_intro hendb), if_neg (not_not_intro hpre), if_pos hcond]
  simp only [hdrop]
  rw [if_pos hds]

/-- Every link normalize_pf_link accepts for one of the configured tabs is
    a fixed point of re-normalization. -/
theorem normalize_pf_link_renorm (tab : TabDef) (htab : tab ∈ TABS) (href u : Url)
    (h : normalize_pf_link tab href = some u) : normalize_pf_link tab u = some u := by
  have htd : tab = registerTab ∨ tab = chronicleTab ∨ tab = charterTab ∨ tab = photoTab ∨
      tab = censusTab ∨ tab = mapTab ∨ tab = periodicalTab ∨ tab = amtsbuchTab := by
    simpa [TABS] using htab
  have hroot : tab.prefer_iipimage_root = true := by
    rcases htd with rfl | rfl | rfl | rfl | rfl | rfl | rfl | rfl <;> rfl
  have hiip : "/iipimage/" ∈ tab.allowed_prefixes := by
    rcases htd with rfl | rfl | rfl | rfl | rfl | rfl | rfl | rfl <;> decide
  unfold normalize_pf_link at h
  by_cases h0 : href = Url.empty
  · rw [if_pos h0] at h
    cases h
  · rw [if_neg h0] at h
    set full := urljoinBase href with hfull
    by_cases h1 : ¬ strEndsWith full.netloc "portafontium.eu"
    · rw [if_pos h1] at h
      cases h
    · rw [if_neg h1] at h
      by_cases h2 : ¬ tab.allowed_prefixes.any (fun pref => strStartsWith full.path pref)
      · rw [if_pos h2] at h
        cases h
      · rw [if_neg h2] at h
        have hend : strEndsWith full.netloc "portafontium.eu" = true := of_not_not h1
        have hpre : (tab.allowed_prefixes.any fun pref => strStartsWith full.path pref) = true :=
          of_not_not h2
        have hnet : full.netloc ≠ "" := by
          intro hc
          rw [hc] at hend
          exact absurd hend (by decide)
        have hsch := urljoinBase_scheme_cases href
        rw [← hfull] at hsch
        by_cases h3 : tab.prefer_iipimage_root && strStartsWith full.path "/iipimage/"
        · rw [if_pos h3] at h
          by_cases h4 : (full.path.data.drop 10).takeWhile Char.isDigit ≠ []
          · rw [if_pos h4] at h
            injection h with h5
            rw [← h5]
            refine normalize_mkViewer_fix tab hroot hiip _ h4 ?_
            intro c hc
            exact List.mem_takeWhile_imp hc
          · rw [if_neg h4] at h
            injection h with h5
            rw [← h5]
            exact normalize_strip_branch_fix tab full hnet hsch hend hpre
              (Or.inr (of_not_not h4))
        · rw [if_neg h3] at h
          injection h with h5
          rw [← h5]
          refine normalize_strip_branch_fix tab full hnet hsch hend hpre (Or.inl ?_)
          cases hbv : tab.prefer_iipimage_root && strStartsWith full.path "/iipimage/" with
          | false => rfl
          | true => exact absurd hbv h3

/-- find? on a decomposed list whose prefix fails the test finds the
    marked element. -/
theorem find_append_cons {α : Type} (p : α → Bool) (l1 : List α) (x : α) (l2 : List α)
    (hx : p x = true) (h1 : ∀ y ∈ l1, p y = false) : (l1 ++ x :: l2).find? p = some x := by
  induction l1 with
  | nil => simp [List.find?_cons, hx]
  | cons z zs ih =>
    rw [List.cons_append, List.find?_cons]
    rw [h1 z (List.mem_cons_self z zs)]
    exact ih (fun y hy => h1 y (List.mem_cons_of_mem _ hy))

/-- find? over a list failing the test everywhere. -/
theorem find_eq_none {α : Type} (p : α → Bool) (l : List α) (h : ∀ x ∈ l, p x = false) :
    l.find? p = none := by
  rw [List.find?_eq_none]
  intro x hx
  rw [h x hx]
  exact Bool.false_ne_true

/-- First-occurrence dedup of a nonempty list is nonempty. -/
theorem dedupFirst_ne_nil {α : Type} [DecidableEq α] {l : List α} (h : l ≠ []) :
    dedupFirst l ≠ [] := by
  rcases l with _ | ⟨x, xs⟩
  · exact absurd rfl h
  · intro hc
    have hx : x ∈ dedupFirst (x :: xs) := mem_dedupFirst.mpr (List.mem_cons_self _ _)
    rw [hc] at hx
    cases hx

/-! Concrete crawl environments for scenario evaluation. -/

/-- Complete view metadata, so the crawl skips the bootstrap re-fetch. -/
def viOK : ViewInfo := { view_display_id := "page", view_dom_id := "js-view-dom-id-x" }

/-- A document that is pure text, with no anchors in scope. -/
def htmlOf (t : String) : Html := { text := t, anchors := [] }

/-- A crawl environment whose stop flag is already set. -/
def noEnv : CrawlEnv :=
  { direct := fun _ => .error "down", ajax := fun _ => .error "down",
    boot := .error "down", expFetch := fun _ => .error "down",
    stopPage := fun _ => true, stopExp := fun _ => true }

/-- An environment whose network is down: every fetch raises. -/
def failEnv : CrawlEnv :=
  { direct := fun _ => .error "conn", ajax := fun _ => .error "neterr",
    boot := .error "conn", expFetch := fun _ => .error "conn",
    stopPage := fun _ => false, stopExp := fun _ => false }

/-- Two viewer ids on the first page, nothing afterwards. -/
def oneEnv : CrawlEnv :=
  { direct := fun p =>
      if p = 0 then .ok (htmlOf "/iipimage/7 /iipimage/8") else .ok (htmlOf "blank"),
    ajax := fun _ => .ok (htmlOf "blank"),
    boot := .error "unused", expFetch := fun _ => .error "unused",
    stopPage := fun _ => false, stopExp := fun _ => false }

/-- One fresh link, an empty page, an all-seen page, then fresh links on
    every later page. -/
def env1c : CrawlEnv :=
  { direct := fun p =>
      if p = 0 then .ok (htmlOf "/iipimage/1")
      else if p = 1 then .ok (htmlOf "blank")
      else if p = 2 then .ok (htmlOf "/iipimage/1")
      else .ok (htmlOf ("/iipimage/" ++ toString p)),
    ajax := fun _ => .ok (htmlOf "blank"),
    boot := .error "unused", expFetch := fun _ => .error "unused",
    stopPage := fun _ => false, stopExp := fun _ => false }

/-- Ten viewer ids 10k..10k+9 as page text. -/
def tenIds (k : Nat) : String :=
  String.join ((List.range 10).map (fun i => "/iipimage/" ++ toString (10 * k + i) ++ " "))

/-- Three pages of ten fresh ids each, every later page repeating the
    third. -/
def env6 : CrawlEnv :=
  { direct := fun p => .ok (htmlOf (tenIds (min (p + 1) 3))),
    ajax := fun _ => .error "unused",
    boot := .error "unused", expFetch := fun _ => .error "unused",
    stopPage := fun _ => false, stopExp := fun _ => false }

/-- Three pages of ten fresh ids, page 3 repeating page 2, page 4 fresh
    again, every later page repeating page 4. -/
def env6b : CrawlEnv :=
  { direct := fun p =>
      .ok (htmlOf (tenIds (if p = 3 then 3 else if p ≤ 2 then p + 1 else 4))),
    ajax := fun _ => .error "unused",
    boot := .error "unused", expFetch := fun _ => .error "unused",
    stopPage := fun _ => false, stopExp := fun _ => false }

/-- A periodical container link. -/
def perUrl : Url :=
  { scheme := "https", netloc := "www.portafontium.eu", path := "/periodical/zeitung-9",
    params := "", query := [], fragment := "" }

/-- A link that is both container-form and viewer-form. -/
def dualUrl : Url :=
  { scheme := "https", netloc := "www.portafontium.eu", path := "/periodical/z/iipimage/9",
    params := "", query := [], fragment := "" }

/-- Every container page yields viewer id 77. -/
def env7 : CrawlEnv :=
  { direct := fun _ => .error "unused", ajax := fun _ => .error "unused",
    boot := .error "unused", expFetch := fun _ => .ok (htmlOf "/iipimage/77"),
    stopPage := fun _ => false, stopExp := fun _ => false }

/-- The same viewer id on every page. -/
def delayEnv : CrawlEnv :=
  { direct := fun _ => .ok (htmlOf "/iipimage/3"),
    ajax := fun _ => .error "unused",
    boot := .error "unused", expFetch := fun _ => .error "unused",
    stopPage := fun _ => false, stopExp := fun _ => false }

/-- A register link carrying a language parameter and a fragment. -/
def uC4in : Url :=
  { scheme := "https", netloc := "www.portafontium.eu", path := "/register/abc",
    params := "", query := [("language", "de"), ("page", "2")], fragment := "top" }

/-- The register link as normalized. -/
def uC4out : Url :=
  { scheme := "https", netloc := "www.portafontium.eu", path := "/register/abc",
    params := "", query := [("page", "2")], fragment := "" }

/-- A plain register link. -/
def regUrl : Url :=
  { scheme := "https", netloc := "www.portafontium.eu", path := "/register/abc",
    params := "", query := [], fragment := "" }

/-- Equation of pick_default_option on a nonempty option list. -/
theorem pick_default_option_cons (o : String × String) (rest : List (String × String)) :
    pick_default_option (o :: rest) =
      match (o :: rest).find? (fun lv => lv.2 = "") with
      | some lv => lv.2
      | none =>
        match (o :: rest).find? (fun lv => strLower lv.2 = "all") with
        | some lv => lv.2
        | none =>
          match (o :: rest).find? (fun lv => labelMeansAll lv.1) with
          | some lv => lv.2
          | none => o.2 := rfl

/-- C8: default-option selection follows the fixed precedence empty value,
    value meaning all, label meaning all, first option; on the two listed
    inputs it picks the empty value and the all value. -/
theorem C8_default_option_precedence :
    (∀ opts : List (String × String),
      (∀ l1 lv l2, opts = l1 ++ lv :: l2 → lv.2 = "" → (∀ x ∈ l1, x.2 ≠ "") →
        pick_default_option opts = lv.2) ∧
      ((∀ x ∈ opts, x.2 ≠ "") →
        ∀ l1 lv l2, opts = l1 ++ lv :: l2 → strLower lv.2 = "all" →
          (∀ x ∈ l1, strLower x.2 ≠ "all") → pick_default_option opts = lv.2) ∧
      ((∀ x ∈ opts, x.2 ≠ "" ∧ strLower x.2 ≠ "all") →
        ∀ l1 lv l2, opts = l1 ++ lv :: l2 → labelMeansAll lv.1 = true →
          (∀ x ∈ l1, labelMeansAll x.1 = false) → pick_default_option opts = lv.2) ∧
      ((∀ x ∈ opts, x.2 ≠ "" ∧ strLower x.2 ≠ "all" ∧ labelMeansAll x.1 = false) →
        ∀ o rest, opts = o :: rest → pick_default_option opts = o.2)) ∧
    pick_default_option [("", ""), ("All", "all"), ("Foo", "1")] = "" ∧
    pick_default_option [("Vše", "all"), ("Foo", "1")] = "all" := by
  refine ⟨fun opts => ⟨?_, ?_, ?_, ?_⟩, by decide, by decide⟩
  · intro l1 lv l2 hdec hv h1
    subst hdec
    have hfind : (l1 ++ lv :: l2).find? (fun kv => decide (kv.2 = "")) = some lv :=
      find_append_cons _ l1 lv l2 (decide_eq_true hv) (fun y hy => decide_eq_false (h1 y hy))
    rcases l1 with _ | ⟨z, zs⟩
    · rw [List.nil_append] at hfind ⊢
      rw [pick_default_option_cons, hfind]
    · rw [List.cons_append] at hfind ⊢
      rw [pick_default_option_cons, hfind]
  · intro hall l1 lv l2 hdec hv h1
    subst hdec
    have hn1 : (l1 ++ lv :: l2).find? (fun kv => decide (kv.2 = "")) = none :=
      find_eq_none _ _ (fun x hx => decide_eq_false (hall x hx))
    have hfind : (l1 ++ lv :: l2).find? (fun kv => decide (strLower kv.2 = "all")) = some lv :=
      find_append_cons _ l1 lv l2 (decide_eq_true hv) (fun y hy => decide_eq_false (h1 y hy))
    rcases l1 with _ | ⟨z, zs⟩
    · rw [List.nil_append] at hn1 hfind ⊢
      rw [pick_default_option_cons, hn1, hfind]
    · rw [List.cons_append] at hn1 hfind ⊢
      rw [pick_default_option_cons, hn1, hfind]
  · intro hall l1 lv l2 hdec hv h1
    subst hdec
    have hn1 : (l1 ++ lv :: l2).find? (fun kv => decide (kv.2 = "")) = none :=
      find_eq_none _ _ (fun x hx => decide_eq_false (hall x hx).1)
    have hn2 : (l1 ++ lv :: l2).find? (fun kv => decide (strLower kv.2 = "all")) = none :=
      find_eq_none _ _ (fun x hx => decide_eq_false (hall x hx).2)
    have hfind : (l1 ++ lv :: l2).find? (fun kv => labelMeansAll kv.1) = some lv :=
      find_append_cons _ l1 lv l2 hv (fun y hy => h1 y hy)
    rcases l1 with _ | ⟨z, zs⟩
    · rw [List.nil_append] at hn1 hn2 hfind ⊢
      rw [pick_default_option_cons, hn1, hn2, hfind]
    · rw [List.cons_append] at hn1 hn2 hfind ⊢
      rw [pick_default_option_cons, hn1, hn2, hfind]
  · intro hall o rest hdec
    subst hdec
    have hn1 : (o :: rest).find? (fun kv => decide (kv.2 = "")) = none :=
      find_eq_none _ _ (fun x hx => decide_eq_false (hall x hx).1)
    have hn2 : (o :: rest).find? (fun kv => decide (strLower kv.2 = "all")) = none :=
      find_eq_none _ _ (fun x hx => decide_eq_false (hall x hx).2.1)
    have hn3 : (o :: rest).find? (fun kv => labelMeansAll kv.1) = none :=
      find_eq_none _ _ (fun x hx => (hall x hx).2.2)
    rw [pick_default_option_cons, hn1, hn2, hn3]

/-- Witness for C8 at a concrete decomposed input. -/
theorem C8_default_option_precedence_witness :
    pick_default_option [("Foo", "1"), ("", ""), ("Bar", "2")] = "" :=
  (C8_default_option_precedence.1 [("Foo", "1"), ("", ""), ("Bar", "2")]).1
    [("Foo", "1")] ("", "") [("Bar", "2")] rfl rfl (by decide)

/-- C3: for a non-periodical viewer-preferring tab and a page text carrying
    at least one embedded viewer id, extraction returns exactly one
    canonical viewer link per distinct id, in first-seen scan order, and
    ignores every anchor of the page. -/
theorem C3_viewer_only_extraction (tab : TabDef) (text : String) (anchors : List Url)
    (hkey : tab.key ≠ "periodical") (hpref : tab.prefer_iipimage_only_if_present = true)
    (hids : findIip text.data ≠ []) :
    extract_links_from_html tab { text := text, anchors := anchors } =
      (dedupFirst (findIip text.data)).map mkViewer ∧
    ((dedupFirst (findIip text.data)).map mkViewer).Nodup ∧
    extract_links_from_html tab { text := text, anchors := anchors } =
      extract_links_from_html tab { text := text, anchors := [] } := by
  have hnd : ((dedupFirst (findIip text.data)).map mkViewer).Nodup :=
    (dedupFirst_nodup _).map mkViewer_injective
  have hcond : tab.key ≠ "periodical" ∧ extract_iipimage_ids_anywhere text ≠ [] ∧
      tab.prefer_iipimage_only_if_present = true :=
    ⟨hkey, dedupFirst_ne_nil hids, hpref⟩
  have he : ∀ ancs : List Url,
      extract_links_from_html tab { text := text, anchors := ancs } =
        (dedupFirst (findIip text.data)).map mkViewer := by
    intro ancs
    unfold extract_links_from_html
    rw [if_pos hcond]
    exact dedupFirst_eq_self hnd
  exact ⟨he anchors, hnd, (he anchors).trans (he []).symm⟩

/-- Witness for C3: two ids, one repeated, one anchor ignored. -/
theorem C3_viewer_only_extraction_witness :
    extract_links_from_html registerTab
        { text := "/iipimage/5 x /iipimage/5 /iipimage/12", anchors := [regUrl] } =
      (dedupFirst (findIip ("/iipimage/5 x /iipimage/5 /iipimage/12" : String).data)).map
        mkViewer ∧
    ((dedupFirst (findIip ("/iipimage/5 x /iipimage/5 /iipimage/12" : String).data)).map
        mkViewer).Nodup ∧
    extract_links_from_html registerTab
        { text := "/iipimage/5 x /iipimage/5 /iipimage/12", anchors := [regUrl] } =
      extract_links_from_html registerTab
        { text := "/iipimage/5 x /iipimage/5 /iipimage/12", anchors := [] } :=
  C3_viewer_only_extraction registerTab "/iipimage/5 x /iipimage/5 /iipimage/12" [regUrl]
    (by decide) rfl (by decide)

/-- C4: strip_language_param is idempotent, every accepted link of
    normalize_pf_link for a configured tab re-normalizes to itself, and
    stripping a link with an added locale parameter equals stripping the
    link without it. -/
theorem C4_normalization_idempotent :
    (∀ u, strip_language_param (strip_language_param u) = strip_language_param u) ∧
    (∀ tab, tab ∈ TABS → ∀ href u, normalize_pf_link tab href = some u →
      normalize_pf_link tab u = some u) ∧
    (∀ u v, strip_language_param (addLanguageParam u v) = strip_language_param u) :=
  ⟨strip_language_param_idem,
    fun tab htab href u h => normalize_pf_link_renorm tab htab href u h,
    strip_addLanguageParam⟩

/-- Witness for C4 on a register link with locale parameter and
    fragment. -/
theorem C4_normalization_idempotent_witness :
    normalize_pf_link registerTab uC4out = some uC4out :=
  C4_normalization_idempotent.2.1 registerTab (by decide) uC4in uC4out rfl

/-- C7 (amended): when the expansion pass runs on a list with at least one
    container link, its output is made of links whose rendering contains
    the viewer marker, with no two entries equal after normalization; a
    link containing both markers survives, so the output is not free of
    container links. -/
theorem C7_expansion_viewer_marked (env : CrawlEnv) (links : List Url) (d : ℚ)
    (tr : List Ev) (out : List Url)
    (hc : links.filter (fun u => urlContains u "/periodical/") ≠ [])
    (h : expand_periodicals_via_periodical_pages env links d = (tr, out)) :
    (∀ u ∈ out, urlContains u "/iipimage/" = true) ∧
    (out.map strip_language_param).Nodup := by
  rcases expand_char env links d with ⟨hper, _⟩ | ⟨_, he⟩
  · exact absurd hper hc
  · rw [he] at h
    injection h with h1 h2
    subst h2
    constructor
    · intro u hu
      exact (List.mem_filter.mp (mem_dedupFirst.mp hu)).2
    · have hfix : ∀ x ∈ dedupFirst
          ((((expandAux env d 1 (links.filter (fun u => urlContains u "/periodical/"))
            links).2.map strip_language_param).filter (fun u => urlContains u "/iipimage/"))),
          strip_language_param x = x := by
        intro x hx
        have hx2 := (List.mem_filter.mp (mem_dedupFirst.mp hx)).1
        rcases List.mem_map.mp hx2 with ⟨y, _, rfl⟩
        exact strip_language_param_idem y
      rw [map_strip_eq_self hfix]
      exact dedupFirst_nodup _

/-- Witness for C7 on one container page yielding one viewer id. -/
theorem C7_expansion_viewer_marked_witness :
    (∀ u ∈ [mkViewer "77"], urlContains u "/iipimage/" = true) ∧
    (([mkViewer "77"]).map strip_language_param).Nodup :=
  C7_expansion_viewer_marked env7 [perUrl] 0
    [Ev.expGet perUrl, Ev.expPage perUrl ["77"]] [mkViewer "77"] (by decide) rfl

/-- Counterexample to C7 as stated: a link that is container-form and
    viewer-form at once is not dropped by the expansion pass. -/
theorem C7_container_kept_counterexample :
    ∃ tr out, expand_periodicals_via_periodical_pages env7 [dualUrl] 0 = (tr, out) ∧
      ([dualUrl].filter (fun u => urlContains u "/periodical/") ≠ []) ∧
      dualUrl ∈ out ∧ urlContains dualUrl "/periodical/" = true := by
  refine ⟨_, _, rfl, by decide, by decide, by decide⟩

/-- C10: with no container link in the input the periodical expansion pass
    is the identity, with no fetch, delay or filtering. -/
theorem C10_no_container_identity (env : CrawlEnv) (links : List Url) (d : ℚ)
    (h : links.filter (fun u => urlContains u "/periodical/") = []) :
    expand_periodicals_via_periodical_pages env links d = ([], links) := by
  rcases expand_char env links d with ⟨_, he⟩ | ⟨hne, _⟩
  · exact he
  · exact absurd h hne

/-- Witness for C10: a non-viewer entry is preserved untouched. -/
theorem C10_no_container_identity_witness :
    expand_periodicals_via_periodical_pages env7 [mkViewer "5", regUrl] 0 =
      ([], [mkViewer "5", regUrl]) :=
  C10_no_container_identity env7 [mkViewer "5", regUrl] 0 (by decide)

/-- The loop trace of the page-0 crawl of oneEnv. -/
def trOne : List Ev :=
  [Ev.get 0,
    Ev.page 0 [mkViewer "7", mkViewer "8"] [mkViewer "7", mkViewer "8"],
    Ev.get 1, Ev.ajaxCall 1 [], Ev.page 1 [] [],
    Ev.get 2, Ev.ajaxCall 2 [], Ev.page 2 [] [], Ev.brk 2]

/-- The loop trace of the delayEnv crawl with delay one second. -/
def trDelay : List Ev :=
  [Ev.get 0, Ev.page 0 [mkViewer "3"] [mkViewer "3"], Ev.sleep 0,
    Ev.get 1, Ev.page 1 [mkViewer "3"] [], Ev.sleep 1,
    Ev.get 2, Ev.page 2 [mkViewer "3"] [], Ev.brk 2]

/-- C1 (amended): the crawl performs at most max_pages page GETs, and two
    consecutive SAME-KIND unproductive pages (both empty, or both yielding
    only already seen links) stop the loop at once: no later page is
    fetched.  Two consecutive unproductive pages of mixed kind do not bound
    the remaining iterations. -/
theorem C1_crawl_budget_and_streaks (env : CrawlEnv) (tab : TabDef)
    (exposed : List (String × String)) (vi : ViewInfo) (mp : Nat) (d : ℚ)
    (tr : List Ev) (r : Except String (List Url))
    (h : crawl_tab_links env tab exposed vi mp d = (tr, r)) :
    tr.countP isGetB ≤ mp ∧
    (∀ p, Ev.page p [] [] ∈ tr → Ev.page (p + 1) [] [] ∈ tr →
      ∀ q, Ev.get q ∈ tr → q ≤ p + 1) ∧
    (∀ p pls1 pls2, pls1 ≠ [] → pls2 ≠ [] → Ev.page p pls1 [] ∈ tr →
      Ev.page (p + 1) pls2 [] ∈ tr → ∀ q, Ev.get q ∈ tr → q ≤ p + 1) := by
  refine ⟨?_, ?_, ?_⟩
  · have hb := crawl_gets_le env tab exposed vi mp d
    rw [h] at hb
    exact hb
  · intro p hp1 hp2 q hq
    rcases crawl_trace_split env tab exposed vi mp d tr r h with
      ⟨e, htr, _⟩ | ⟨be, ltr, post, lres, hcp, htr, hbe, hpost, _⟩
    · subst htr
      simp at hp1
    · subst htr
      have hp1' := mem_loop_segment (show loopIdx (Ev.page p [] []) = some p from rfl)
        hbe hpost hp1
      have hp2' := mem_loop_segment (show loopIdx (Ev.page (p + 1) [] []) = some (p + 1)
        from rfl) hbe hpost hp2
      have hq' := mem_loop_segment (show loopIdx (Ev.get q) = some q from rfl) hbe hpost hq
      exact crawlPages_empty2 env tab exposed d mp 0 [] 0 0 ltr lres hcp p hp1' hp2' q hq'
  · intro p pls1 pls2 hpl1 hpl2 hp1 hp2 q hq
    rcases crawl_trace_split env tab exposed vi mp d tr r h with
      ⟨e, htr, _⟩ | ⟨be, ltr, post, lres, hcp, htr, hbe, hpost, _⟩
    · subst htr
      simp at hp1
    · subst htr
      have hp1' := mem_loop_segment (show loopIdx (Ev.page p pls1 []) = some p from rfl)
        hbe hpost hp1
      have hp2' := mem_loop_segment (show loopIdx (Ev.page (p + 1) pls2 []) = some (p + 1)
        from rfl) hbe hpost hp2
      have hq' := mem_loop_segment (show loopIdx (Ev.get q) = some q from rfl) hbe hpost hq
      exact crawlPages_nonew2 env tab exposed d mp 0 [] 0 0 ltr lres hcp p pls1 pls2
        hpl1 hpl2 hp1' hp2' q hq'

/-- Witness for C1 on the oneEnv crawl. -/
theorem C1_crawl_budget_and_streaks_witness :
    trOne.countP isGetB ≤ 10 ∧
    (∀ p, Ev.page p [] [] ∈ trOne → Ev.page (p + 1) [] [] ∈ trOne →
      ∀ q, Ev.get q ∈ trOne → q ≤ p + 1) ∧
    (∀ p pls1 pls2, pls1 ≠ [] → pls2 ≠ [] → Ev.page p pls1 [] ∈ trOne →
      Ev.page (p + 1) pls2 [] ∈ trOne → ∀ q, Ev.get q ∈ trOne → q ≤ p + 1) :=
  C1_crawl_budget_and_streaks oneEnv registerTab [] viOK 10 0 trOne
    (Except.ok [mkViewer "7", mkViewer "8"]) rfl

/-- Counterexample to C1 as stated: after the consecutive unproductive
    pages 1 (empty) and 2 (nothing new), the crawl still fetches pages 5
    and 6 — more than 2 additional iterations. -/
theorem C1_mixed_streak_counterexample :
    ∃ tr r, crawl_tab_links env1c registerTab [] viOK 7 0 = (tr, r) ∧
      Ev.page 1 [] [] ∈ tr ∧ Ev.page 2 [mkViewer "1"] [] ∈ tr ∧
      Ev.get 5 ∈ tr ∧ Ev.get 6 ∈ tr := by
  refine ⟨_, _, rfl, by decide, by decide, by decide, by decide⟩

/-- C2: a successful crawl result has no two normalized-equal entries and
    lists links in first-seen discovery order; one extraction call has no
    duplicates and lists links in first-seen extraction order. -/
theorem C2_nodup_first_seen :
    (∀ env tab exposed vi mp d tr r,
      crawl_tab_links env tab exposed vi mp d = (tr, Except.ok r) →
      (r.map strip_language_param).Nodup ∧
      r.Pairwise (fun a b =>
        firstIdx ((discoveredOf tr).map strip_language_param) a <
          firstIdx ((discoveredOf tr).map strip_language_param) b)) ∧
    (∀ tab h, (extract_links_from_html tab h).Nodup ∧
      (extract_links_from_html tab h).Pairwise (fun a b =>
        firstIdx (extractStream tab h) a < firstIdx (extractStream tab h) b)) := by
  constructor
  · intro env tab exposed vi mp d tr r h
    rcases crawl_ok_char env tab exposed vi mp d tr r h with ⟨hnd, hfix, hshape⟩
    constructor
    · rw [map_strip_eq_self hfix]
      exact hnd
    · have hpw := dedupFirstAux_pairwise_firstIdx ([] : List Url)
        ((discoveredOf tr).map strip_language_param)
      rcases hshape with hs1 | hs2
      · rw [hs1]
        exact hpw
      · rw [hs2]
        exact hpw.sublist (List.filter_sublist _)
  · intro tab h
    refine ⟨extract_nodup tab h, ?_⟩
    rw [extract_eq_dedup_stream]
    exact dedupFirstAux_pairwise_firstIdx [] (extractStream tab h)

/-- Witness for C2 on the oneEnv crawl. -/
theorem C2_nodup_first_seen_witness :
    (([mkViewer "7", mkViewer "8"].map strip_language_param).Nodup ∧
      ([mkViewer "7", mkViewer "8"]).Pairwise (fun a b =>
        firstIdx ((discoveredOf trOne).map strip_language_param) a <
          firstIdx ((discoveredOf trOne).map strip_language_param) b)) :=
  C2_nodup_first_seen.1 oneEnv registerTab [] viOK 10 0 trOne
    [mkViewer "7", mkViewer "8"] rfl

/-- C5: a reached page whose direct fetch yields no links triggers the
    ajax endpoint at the same page with the same exposed items, and an
    ajax failure aborts the whole crawl with no later page fetched. -/
theorem C5_ajax_fallback (env : CrawlEnv) (tab : TabDef) (exposed : List (String × String))
    (vi : ViewInfo) (mp : Nat) (d : ℚ) (tr : List Ev) (r : Except String (List Url))
    (h : crawl_tab_links env tab exposed vi mp d = (tr, r)) (p : Nat)
    (hget : Ev.get p ∈ tr) (hde : directExtract env tab p = []) :
    Ev.ajaxCall p exposed ∈ tr ∧
    ∀ e, env.ajax p = Except.error e → r = Except.error e ∧
      ∀ q, Ev.get q ∈ tr → q ≤ p := by
  rcases crawl_trace_split env tab exposed vi mp d tr r h with
    ⟨e, htr, _⟩ | ⟨be, ltr, post, lres, hcp, htr, hbe, hpost, herr⟩
  · subst htr
    simp at hget
  · subst htr
    have hget' := mem_loop_segment (show loopIdx (Ev.get p) = some p from rfl)
      hbe hpost hget
    have hmain := crawlPages_ajax env tab exposed d mp 0 [] 0 0 ltr lres hcp p hget' hde
    refine ⟨List.mem_append.mpr (Or.inl (List.mem_append.mpr (Or.inr hmain.1))), ?_⟩
    intro e he
    rcases hmain.2 e he with ⟨hres, hq⟩
    refine ⟨herr e hres, ?_⟩
    intro q hqin
    exact hq q (mem_loop_segment (show loopIdx (Ev.get q) = some q from rfl) hbe hpost hqin)

/-- Witness for C5 on the failing-network environment. -/
theorem C5_ajax_fallback_witness :
    Ev.ajaxCall 0 [] ∈ [Ev.get 0, Ev.ajaxCall 0 [], Ev.brk 0] ∧
    ∀ e, failEnv.ajax 0 = Except.error e →
      (Except.error "neterr" : Except String (List Url)) = Except.error e ∧
      ∀ q, Ev.get q ∈ [Ev.get 0, Ev.ajaxCall 0 [], Ev.brk 0] → q ≤ 0 :=
  C5_ajax_fallback failEnv registerTab [] viOK 5 0 [Ev.get 0, Ev.ajaxCall 0 [], Ev.brk 0]
    (Except.error "neterr") rfl 0 (by decide) rfl

/-- C9: the positive inter-page delay is honored after each page that
    yielded a new link and before any later page is fetched, and no page
    that terminates the loop is followed by the delay. -/
theorem C9_delay_discipline (env : CrawlEnv) (tab : TabDef) (exposed : List (String × String))
    (vi : ViewInfo) (mp : Nat) (d : ℚ) (tr : List Ev) (r : Except String (List Url))
    (h : crawl_tab_links env tab exposed vi mp d = (tr, r)) :
    (∀ p pls added, Ev.page p pls added ∈ tr → added ≠ [] → 0 < d →
      Ev.sleep p ∈ tr ∧ ∀ q, p < q → ¬ ([Ev.get q, Ev.sleep p]).Sublist tr) ∧
    (∀ p, Ev.brk p ∈ tr → Ev.sleep p ∉ tr) := by
  have hmono := crawl_mono env tab exposed vi mp d tr r h
  constructor
  · intro p pls added hpage hadd hd
    rcases crawl_trace_split env tab exposed vi mp d tr r h with
      ⟨e, htr, _⟩ | ⟨be, ltr, post, lres, hcp, htr, hbe, hpost, _⟩
    · subst htr
      simp at hpage
    · constructor
      · subst htr
        have hpage' := mem_loop_segment (show loopIdx (Ev.page p pls added) = some p
          from rfl) hbe hpost hpage
        have hsl := crawlPages_sleep_new env tab exposed d mp 0 [] 0 0 ltr lres hcp
          p pls added hpage' hadd hd
        exact List.mem_append.mpr (Or.inl (List.mem_append.mpr (Or.inr hsl)))
      · intro q hpq hsub
        have hpw : ([Ev.get q, Ev.sleep p]).Pairwise evLe := hmono.sublist hsub
        have hle := (List.pairwise_cons.mp hpw).1 (Ev.sleep p)
          (List.mem_singleton.mpr rfl) q p rfl rfl
        omega
  · intro p hbrk hsl
    rcases crawl_trace_split env tab exposed vi mp d tr r h with
      ⟨e, htr, _⟩ | ⟨be, ltr, post, lres, hcp, htr, hbe, hpost, _⟩
    · subst htr
      simp at hbrk
    · subst htr
      have hbrk' := mem_loop_segment (show loopIdx (Ev.brk p) = some p from rfl)
        hbe hpost hbrk
      have hsl' := mem_loop_segment (show loopIdx (Ev.sleep p) = some p from rfl)
        hbe hpost hsl
      exact crawlPages_sleep_nobrk env tab exposed d mp 0 [] 0 0 ltr lres hcp p hsl' hbrk'

/-- Witness for C9 on the constant-page environment with a one-second
    delay. -/
theorem C9_delay_discipline_witness :
    Ev.sleep 0 ∈ trDelay ∧ ∀ q, 0 < q → ¬ ([Ev.get q, Ev.sleep 0]).Sublist trDelay :=
  (C9_delay_discipline delayEnv registerTab [] viOK 10 1 trDelay
      (Except.ok [mkViewer "3"]) rfl).1 0 [mkViewer "3"] [mkViewer "3"]
    (by decide) (by decide) (by decide)

/-- C6 (amended): in the register scenario with three fresh pages of ten
    ids and every later page repeating the third, the crawl stops only
    after page index 4 (the fifth GET), with 30 links. -/
theorem C6_register_streak_scenario :
    ∃ tr r, crawl_tab_links env6 registerTab [] viOK 40 0 = (tr, Except.ok r) ∧
      r.length = 30 ∧ tr.countP isGetB = 5 ∧ Ev.brk 4 ∈ tr ∧ Ev.get 5 ∉ tr := by
  refine ⟨_, _, rfl, by decide, by decide, by decide, by decide⟩

/-- Counterexample to C6 as stated: under the stated premises (three fresh
    pages, page index 3 repeating page index 2) the crawl can continue past
    the fourth GET and return 40 links. -/
theorem C6_counterexample :
    ∃ tr r, crawl_tab_links env6b registerTab [] viOK 40 0 = (tr, Except.ok r) ∧
      Ev.get 4 ∈ tr ∧ Ev.get 6 ∈ tr ∧ r.length = 40 := by
  refine ⟨_, _, rfl, by decide, by decide, by decide⟩
